import Mathlib

/-!
# Verification of the scaffold server's layout parser and materializer

This file gives a shallow embedding of `mcp_scaffolder_server.py`:

* the ASCII-tree parser (`_leading_units`, `parse_ascii_tree`, `collapse_tree`),
* the structured-data parser (`parse_yaml_or_json`) over already-decoded
  YAML/JSON values (decoding itself is modelled by the `JVal` type),
* the path confiner (`safe_join`) over purely lexical path resolution
  (symlinks are outside the model; `Path.resolve` is modelled as textual
  normalisation of `.`/`..`), and
* the materializer loop of `scaffold_project` over an explicit association-list
  filesystem.

Python strings are modelled as `List Char` (code-point lists), which keeps all
definitions structurally recursive and kernel-computable.  Python's whitespace
set is modelled by its ASCII part (the inputs of interest contain no exotic
Unicode whitespace) and `str.splitlines` by splitting on `'\n'`.
-/

set_option linter.unusedVariables false

namespace Scaffolder

/-- ASCII part of Python's whitespace class (`str.strip`, `\s`). -/
def isPyWs (c : Char) : Bool :=
  c == ' ' || c == '\t' || c == '\n' || c == '\r' || c == '\x0b' || c == '\x0c'

/-- `str.lstrip` with an arbitrary character test. -/
def lstripWhile (p : Char → Bool) (s : List Char) : List Char := s.dropWhile p

/-- `str.rstrip` with an arbitrary character test. -/
def rstripWhile (p : Char → Bool) (s : List Char) : List Char :=
  (s.reverse.dropWhile p).reverse

/-- `str.strip()` (no argument): strip whitespace on both sides. -/
def pyStrip (s : List Char) : List Char := rstripWhile isPyWs (lstripWhile isPyWs s)

/-- `str.rstrip()` (no argument). -/
def pyRstrip (s : List Char) : List Char := rstripWhile isPyWs s

/-- Split a character list on a separator character; always returns at least
one (possibly empty) piece, like Python's `str.split(sep)`. -/
def splitOnChar (c : Char) : List Char → List (List Char)
  | [] => [[]]
  | x :: xs =>
    let r := splitOnChar c xs
    if x == c then [] :: r
    else
      match r with
      | h :: t => (x :: h) :: t
      | [] => [[x]]

/-- `str.splitlines()`, modelled for `'\n'`-separated text: empty string gives
no lines, and a trailing newline does not produce a trailing empty line. -/
def splitLines (s : List Char) : List (List Char) :=
  match s with
  | [] => []
  | _ =>
    if s.getLast? == some '\n' then (splitOnChar '\n' s).dropLast
    else splitOnChar '\n' s

/-! ## Tree-diagram parser (`BOX_CHARS`, `_leading_units`, `parse_ascii_tree`,
`collapse_tree`) -/

/-- `BOX_CHARS = "│├└─"`. -/
def BOX_CHARS : List Char := ['│', '├', '└', '─']

/-- `tmp = line.replace(ch, " ") for ch in BOX_CHARS`. -/
def replaceBox (s : List Char) : List Char :=
  s.map fun c => if BOX_CHARS.contains c then ' ' else c

/-- Does the list start with the branch-connector pattern `"├─ "` or `"└─ "`? -/
def isConnectorAt : List Char → Bool
  | '├' :: '─' :: ' ' :: _ => true
  | '└' :: '─' :: ' ' :: _ => true
  | _ => false

/-- Index of the leftmost occurrence of a branch connector
(`re.search(r"(├─ |└─ )", line)`). -/
def findConnector : List Char → Option Nat
  | [] => none
  | c :: rest =>
    if isConnectorAt (c :: rest) then some 0
    else (findConnector rest).map (· + 1)

/-- `_leading_units(line)`: length of the prefix before the connector (in the
box-char-blanked copy both strings have the same length, so the prefix length
is the connector's index), or the leading-whitespace length of the blanked
copy when there is no connector; then divided by two. -/
def leading_units (line : List Char) : Nat :=
  let tmp := replaceBox line
  let prefLen :=
    match findConnector line with
    | some i => i
    | none => (tmp.takeWhile isPyWs).length
  prefLen / 2

/-- `re.sub(r"^.*?(├─ |└─ )", "", raw).strip()` followed by the
`if name == raw` fallback `raw.lstrip(" \t" + BOX_CHARS).lstrip("- ")`. -/
def stripNameFromLine (raw : List Char) : List Char :=
  let name1 :=
    match findConnector raw with
    | some i => pyStrip (raw.drop (i + 3))
    | none => pyStrip raw
  if name1 == raw then
    lstripWhile (fun c => c == '-' || c == ' ')
      (lstripWhile (fun c => c == ' ' || c == '\t' || BOX_CHARS.contains c) raw)
  else name1

/-- `parse_ascii_tree`: one `(depth, name, is_dir)` triple per non-empty line,
skipping a first line that ends with `'/'` (a root label). -/
def parse_ascii_tree (tree_text : List Char) : List (Nat × List Char × Bool) :=
  let lines := ((splitLines (pyStrip tree_text)).filter fun ln => pyStrip ln ≠ []).map pyRstrip
  match lines with
  | [] => []
  | first :: _ =>
    let start_idx := if (pyStrip first).getLast? == some '/' then 1 else 0
    (lines.drop start_idx).map fun raw =>
      let name0 := stripNameFromLine raw
      let isDir := name0.getLast? == some '/'
      let name := if isDir then name0.dropLast else name0
      (leading_units raw, name, isDir)

/-- `"/".join(stack)`. -/
def joinSlash (segs : List (List Char)) : List Char := List.intercalate ['/'] segs

/-- One pass of `collapse_tree`'s loop body over the remaining items, carrying
the directory-name stack (`stack.pop()` = `dropLast`, `append` = `++ [name]`,
`stack[-1] = name` = `dropLast ++ [name]`). -/
def collapseGo (stack : List (List Char)) :
    List (Nat × List Char × Bool) → List (List Char × Bool)
  | [] => []
  | (depth, name, isDir) :: rest =>
    let stack1 := stack.take depth
    let stack2 :=
      if isDir then
        if stack1.length == depth then stack1 ++ [name]
        else if stack1 ≠ [] then stack1.dropLast ++ [name]
        else [name]
      else stack1
    let base := joinSlash stack2
    let rel := if base ≠ [] then base ++ '/' :: name else name
    (rel, isDir) :: collapseGo stack2 rest

/-- `collapse_tree(items)`. The `while len(stack) > depth: stack.pop()` loop is
`stack.take depth`. -/
def collapse_tree (items : List (Nat × List Char × Bool)) : List (List Char × Bool) :=
  collapseGo [] items

/-! ## Decoded YAML/JSON values

`JVal` models the result of `yaml.safe_load` / `json.loads`.  A numeric scalar
carries the text that Python's `str()` would print for it.  Objects are
association lists in insertion order; decoded Python dicts have distinct keys,
which theorems assume where it matters. -/

inductive JVal where
  | null
  | bool (b : Bool)
  | num (txt : List Char)
  | str (s : List Char)
  | arr (elems : List JVal)
  | obj (fields : List (List Char × JVal))

mutual
/-- Python `repr`, approximately: quoting of strings is modelled without escape
sequences.  No claim depends on the container cases. -/
def JVal.pyRepr : JVal → List Char
  | .null => "None".data
  | .bool b => if b then "True".data else "False".data
  | .num t => t
  | .str s => '\'' :: s ++ ['\'']
  | .arr es => '[' :: pyReprElems es ++ [']']
  | .obj fs => '{' :: pyReprFields fs ++ ['}']

/-- Comma-joined `repr`s of a decoded list's elements. -/
def pyReprElems : List JVal → List Char
  | [] => []
  | [v] => v.pyRepr
  | v :: rest => v.pyRepr ++ ", ".data ++ pyReprElems rest

/-- Comma-joined `'key': repr` pairs of a decoded dict. -/
def pyReprFields : List (List Char × JVal) → List Char
  | [] => []
  | [(k, v)] => '\'' :: k ++ ['\''] ++ ": ".data ++ v.pyRepr
  | (k, v) :: rest => '\'' :: k ++ ['\''] ++ ": ".data ++ v.pyRepr ++ ", ".data ++ pyReprFields rest
end

/-- Python `str()` of a decoded value: a string is itself, everything else
prints as its `repr`. -/
def JVal.pyStr : JVal → List Char
  | .str s => s
  | v => v.pyRepr

/-- `key in mapping` for a decoded object. -/
def hasKey (fields : List (List Char × JVal)) (k : List Char) : Bool :=
  fields.any (·.1 == k)

/-- `mapping.get(key)` for a decoded object (first binding; decoded dicts have
unique keys). -/
def getKey (fields : List (List Char × JVal)) (k : List Char) : Option JVal :=
  (fields.find? (·.1 == k)).map (·.2)

/-- `path.rstrip('/')`. -/
def rstripSlash (s : List Char) : List Char := rstripWhile (· == '/') s

/-- `str.lower()` (ASCII). -/
def pyLower (s : List Char) : List Char := s.map Char.toLower

/-! ## Structured-data parser (`parse_yaml_or_json`)

The parser returns the canonical `(path, is_dir, optional content)` triples.
Errors model the `SpecError` exceptions raised on malformed shapes. -/

def errFlatShape : List Char := "YAML/JSON flat shape requires 'entries' list.".data
def errEntryPath : List Char := "Each entry must include 'path'.".data
def errNestedShape : List Char := "YAML/JSON nested shape must be object or under 'tree'.".data

/-- One record of the flat-entry shape (`for it in entries: ...`). -/
def parseFlatEntry (it : JVal) : Except (List Char) (List Char × Bool × Option (List Char)) :=
  match it with
  | .obj fields =>
    match getKey fields "path".data with
    | some pv =>
      let path := pv.pyStr
      let typ := pyLower ((getKey fields "type".data).getD (.str "file".data)).pyStr
      let is_dir := typ == "dir".data || typ == "folder".data || typ == "directory".data
        || path.getLast? == some '/'
      let content :=
        match getKey fields "content".data with
        | none => none
        | some .null => none
        | some c => some c.pyStr
      .ok (rstripSlash path, is_dir, content)
    | none => .error errEntryPath
  | _ => .error errEntryPath

mutual
/-- Body of `walk(prefix, mapping)` for one key/value pair: a dict value is a
subdirectory emitted before its children, any other value is a file (null
meaning "no explicit content", anything else coerced with `str`). -/
def walkVal (pfx k : List Char) : JVal → List (List Char × Bool × Option (List Char))
  | .obj kvs =>
    let p := if pfx == [] then k else pfx ++ '/' :: k
    (rstripSlash p, true, none) :: walkFields p kvs
  | .null =>
    let p := if pfx == [] then k else pfx ++ '/' :: k
    [(rstripSlash p, false, none)]
  | w =>
    let p := if pfx == [] then k else pfx ++ '/' :: k
    [(rstripSlash p, false, some w.pyStr)]

/-- `walk(prefix, mapping)` over the mapping's bindings in insertion order. -/
def walkFields (pfx : List Char) : List (List Char × JVal) → List (List Char × Bool × Option (List Char))
  | [] => []
  | (k, v) :: rest => walkVal pfx k v ++ walkFields pfx rest
end

/-- `walk("", mapping)`. -/
def walkNested (fields : List (List Char × JVal)) : List (List Char × Bool × Option (List Char)) :=
  walkFields [] fields

/-- `parse_yaml_or_json(data)`: the flat-entry shape is chosen whenever the
decoded object is a mapping with an `entries` or `root` key, otherwise the
nested-mapping shape (optionally one level under `tree`) is decoded. -/
def parse_yaml_or_json (data : JVal) :
    Except (List Char) (List (List Char × Bool × Option (List Char))) :=
  match data with
  | .obj fields =>
    if hasKey fields "entries".data || hasKey fields "root".data then
      match getKey fields "entries".data with
      | some (.arr items) => items.mapM parseFlatEntry
      | _ => .error errFlatShape
    else
      match (if hasKey fields "tree".data then (getKey fields "tree".data).getD .null else data) with
      | .obj mfields => .ok (walkNested mfields)
      | _ => .error errNestedShape
  | _ => .error errNestedShape

/-! ## Paths and lexical resolution (`safe_join`)

Absolute paths are lists of segments from the filesystem root.  `Path.resolve`
is modelled lexically (no symlinks): `.` and empty segments vanish, `..` pops.
The confinement root (`MCP_SCAFFOLDER_BASE`) is taken as an already-resolved
absolute path. -/

/-- One path segment. -/
abbrev Seg := List Char

/-- A resolved absolute path, as its list of segments below `/`. -/
abbrev AbsPath := List Seg

/-- `str(path)` of a resolved absolute path (`"/"` for the root). -/
def pathStr (p : AbsPath) : List Char := '/' :: List.intercalate ['/'] p

/-- Lexical resolution of further segments against a resolved start path:
`""` and `"."` vanish, `".."` pops (staying at the root), anything else is
appended. -/
def resolveSegs (st : AbsPath) : List Seg → AbsPath
  | [] => st
  | s :: rest =>
    if s = [] ∨ s = ".".data then resolveSegs st rest
    else if s = "..".data then resolveSegs st.dropLast rest
    else resolveSegs (st ++ [s]) rest

/-- `(base / target).resolve()`: a target starting with `'/'` is absolute and
discards `base`, otherwise its segments are resolved against `base`. -/
def resolveJoin (base : AbsPath) (target : List Char) : AbsPath :=
  if target.head? = some '/' then resolveSegs [] (splitOnChar '/' target)
  else resolveSegs base (splitOnChar '/' target)

/-- `safe_join(base, target)`: resolve, then require `str(p)` to start with
`str(base)` (the source's textual-prefix confinement check). -/
def safe_join (base : AbsPath) (target : List Char) : Except (List Char) AbsPath :=
  if (pathStr base).isPrefixOf (pathStr (resolveJoin base target)) then
    .ok (resolveJoin base target)
  else
    .error ("Target escapes base directory: ".data ++ pathStr (resolveJoin base target)
      ++ " not under ".data ++ pathStr base)

/-- `str(base_target / rel)` as used for dry-run plan records: a purely textual
`PurePath` join in which empty and `"."` segments are dropped but `".."`
segments are kept unresolved. -/
def purePathJoinStr (bt : AbsPath) (rel : List Char) : List Char :=
  let segs := (splitOnChar '/' rel).filter fun s => s ≠ [] ∧ s ≠ ".".data
  if rel.head? = some '/' then pathStr segs
  else pathStr (bt ++ segs)

/-- `os.path.basename(rel)` for forward-slash paths. -/
def basename (s : List Char) : List Char := ((splitOnChar '/' s).getLast?).getD []

/-- `DEFAULT_SNIPPETS`. -/
def DEFAULT_SNIPPETS : List (List Char × List Char) :=
  [("README.md".data, "# Project\n\nDescribe your project here.\n".data),
   (".env.example".data, "# Copy to .env and fill values\nAPI_KEY=\n".data),
   ("requirements.txt".data, "# Add Python dependencies here\n".data)]

/-- `DEFAULT_SNIPPETS.get(name, "")`. -/
def snippetFor (name : List Char) : List Char :=
  (((DEFAULT_SNIPPETS.find? (·.1 == name)).map (·.2)).getD [])

/-! ## Filesystem model

A finite map from absolute paths to nodes, as an association list in which the
most recent binding wins.  The root `[]` is implicitly a directory and is never
stored.  Filesystem errors are modelled by symbolic exception names; the
claims only depend on *whether* an operation fails, not on the message. -/

/-- A filesystem object: a directory or a regular file with its content. -/
inductive FSNode where
  | dir
  | file (content : List Char)
deriving DecidableEq, Repr

/-- Filesystem state. -/
abbrev FS := List (AbsPath × FSNode)

/-- Look up the node at a path (`Path.exists`/`is_dir` level of detail). -/
def FS.lookup (fs : FS) (p : AbsPath) : Option FSNode :=
  (fs.find? (·.1 == p)).map (·.2)

/-- Create or replace the node at a path. -/
def FS.insert (fs : FS) (p : AbsPath) (n : FSNode) : FS := (p, n) :: fs

/-- `path.mkdir(parents=True, exist_ok=True)`, structurally recursive on fuel
(any fuel `≥ p.length` gives the real behaviour): an existing directory is
accepted, an existing file raises, otherwise the parent is created recursively
and the directory added.  On an error nothing has been created (matching
`pathlib`, whose recursion fails before any partial directory is made). -/
def mkdirRec (fs : FS) : Nat → AbsPath → Except (List Char) FS
  | _, [] => .ok fs
  | 0, _ :: _ => .error "NoFuel".data
  | fuel + 1, x :: xs =>
    match fs.lookup (x :: xs) with
    | some .dir => .ok fs
    | some (.file _) => .error "FileExistsError".data
    | none =>
      match mkdirRec fs fuel (x :: xs).dropLast with
      | .error e => .error e
      | .ok fs' => .ok (fs'.insert (x :: xs) .dir)

/-- `abs_path.mkdir(parents=True, exist_ok=True)`. -/
def mkdirParents (fs : FS) (p : AbsPath) : Except (List Char) FS := mkdirRec fs p.length p

/-- `open(abs_path, "w") ... f.write(content)`: requires the parent to be a
directory (scaffolding always creates it first) and the path itself not to be a
directory; creates or truncates the file. -/
def writeFile (fs : FS) (p : AbsPath) (content : List Char) : Except (List Char) FS :=
  match p with
  | [] => .error "IsADirectoryError".data
  | _ :: _ =>
    if p.dropLast = [] ∨ fs.lookup p.dropLast = some .dir then
      match fs.lookup p with
      | some .dir => .error "IsADirectoryError".data
      | _ => .ok (fs.insert p (.file content))
    else .error "FileNotFoundError".data

/-! ## The materializer (`scaffold_project`, lines 239-284) -/

/-- `contents.get(rel)` where `contents` is built up by `contents[p] = content`
assignments in order: the last binding wins, and both "absent" and "present
with `None`" give `None`. -/
def contentsGet (contents : List (List Char × Option (List Char))) (rel : List Char) :
    Option (List Char) :=
  match contents.reverse.find? (·.1 == rel) with
  | some (_, c) => c
  | none => none

/-- The content written for a file entry (lines 267-269): the parsed content
if any, else the basename's default snippet, else `""`. -/
def effContent (contents : List (List Char × Option (List Char))) (rel : List Char) : List Char :=
  match contentsGet contents rel with
  | some c => c
  | none => snippetFor (basename rel)

/-- What one processed entry contributed to the result record. -/
inductive EntryTag where
  | createdTag
  | skippedTag
  | erroredTag (msg : List Char)
deriving DecidableEq, Repr

/-- The loop body for one entry (source lines 258-274), given the confined
absolute path: directories are created with parents; an existing path skips a
file entry when `overwrite` is false; otherwise parents are created, the
content is the parsed one or else the basename's default snippet or `""`, and
the file is written.  Exceptions are caught per entry (`erroredTag`); the
filesystem keeps whatever had been mutated before the exception. -/
def processEntry (overwrite : Bool) (contents : List (List Char × Option (List Char)))
    (fs : FS) (absP : AbsPath) (rel : List Char) (isd : Bool) : FS × EntryTag :=
  if isd then
    match mkdirParents fs absP with
    | .ok fs' => (fs', .createdTag)
    | .error m => (fs, .erroredTag m)
  else if (fs.lookup absP).isSome && !overwrite then (fs, .skippedTag)
  else
    match mkdirParents fs absP.dropLast with
    | .error m => (fs, .erroredTag m)
    | .ok fs' =>
      match writeFile fs' absP (effContent contents rel) with
      | .error m => (fs', .erroredTag m)
      | .ok fs'' => (fs'', .createdTag)

/-- The live-run loop over all entries.  `safe_join` failure for an entry is
*outside* the per-entry `try` (line 257): the raised `SpecError` (returned as
the third component) aborts the loop, the filesystem keeps all previous
mutations, and the per-entry tags collected so far are discarded by the
caller.  The trace records `(rel, is_dir, abs_path, tag)` per processed
entry. -/
def runEntries (overwrite : Bool) (contents : List (List Char × Option (List Char)))
    (bt : AbsPath) (fs : FS) :
    List (List Char × Bool) → FS × List (List Char × Bool × AbsPath × EntryTag) × Option (List Char)
  | [] => (fs, [], none)
  | (rel, isd) :: rest =>
    match safe_join bt rel with
    | .error e => (fs, [], some e)
    | .ok absP =>
      let fsTag := processEntry overwrite contents fs absP rel isd
      let out := runEntries overwrite contents bt fsTag.1 rest
      (out.1, (rel, isd, absP, fsTag.2) :: out.2.1, out.2.2)

/-- `created`: the `str(abs_path)` of entries whose branch ended in
`created.append`. -/
def createdOf (tr : List (List Char × Bool × AbsPath × EntryTag)) : List (List Char) :=
  tr.filterMap fun x => match x.2.2.2 with | .createdTag => some (pathStr x.2.2.1) | _ => none

/-- `skipped`. -/
def skippedOf (tr : List (List Char × Bool × AbsPath × EntryTag)) : List (List Char) :=
  tr.filterMap fun x => match x.2.2.2 with | .skippedTag => some (pathStr x.2.2.1) | _ => none

/-- `errors`, as `(path, message)` pairs (the source formats each as the
single string `f"{abs_path}: {e}"`). -/
def errorsOf (tr : List (List Char × Bool × AbsPath × EntryTag)) : List (List Char × List Char) :=
  tr.filterMap fun x => match x.2.2.2 with
    | .erroredTag m => some (pathStr x.2.2.1, m)
    | _ => none

/-- The returned JSON payload. -/
structure ScaffoldResult where
  selected_mode : List Char
  base : List Char
  target : List Char
  created : List (List Char)
  skipped : List (List Char)
  errors : List (List Char × List Char)
  dry_run : Bool
  plan : Option (List (List Char × List Char))
deriving DecidableEq, Repr

/-- Final filesystem state plus either the result payload or a raised
`SpecError`. -/
structure Outcome where
  fs : FS
  result : Except (List Char) ScaffoldResult
deriving Repr

/-- `target_path.strip().lstrip('/')`. -/
def cleanTarget (target_path : List Char) : List Char :=
  (pyStrip target_path).dropWhile (· == '/')

/-- `scaffold_project` from line 239 on, with parsing already done: confine the
target, then either emit the dry-run plan (`str(base_target / rel)` per entry,
with *no* per-entry confinement) or execute the live loop.  A `SpecError`
raised by `safe_join` becomes an error outcome; mutations performed before the
raise persist. -/
def scaffold_core (selected : List Char) (paths : List (List Char × Bool))
    (contents : List (List Char × Option (List Char)))
    (base : AbsPath) (target_path : List Char) (overwrite dry_run : Bool) (fs : FS) : Outcome :=
  match safe_join base (cleanTarget target_path) with
  | .error e => ⟨fs, .error e⟩
  | .ok bt =>
    if dry_run then
      ⟨fs, .ok { selected_mode := selected, base := pathStr base, target := pathStr bt,
                 created := [], skipped := [], errors := [], dry_run := true,
                 plan := some (paths.map fun e =>
                   (purePathJoinStr bt e.1, if e.2 then "dir".data else "file".data)) }⟩
    else
      let out := runEntries overwrite contents bt fs paths
      match out.2.2 with
      | some e => ⟨out.1, .error e⟩
      | none =>
        ⟨out.1, .ok { selected_mode := selected, base := pathStr base, target := pathStr bt,
                      created := createdOf out.2.1, skipped := skippedOf out.2.1,
                      errors := errorsOf out.2.1, dry_run := false, plan := none }⟩

/-- The natural-language fallback (lines 214-220): when the tree parser found
nothing, every non-empty stripped line is a depth-0 entry, a directory iff it
ends with `'/'`. -/
def nlFallback (prompt : List Char) : List (Nat × List Char × Bool) :=
  (((splitLines prompt).map pyStrip).filter (· ≠ [])).map fun ln =>
    let isd := ln.getLast? == some '/'
    (0, if isd then ln.dropLast else ln, isd)

/-- `scaffold_project` in `tree` mode: parse the ASCII tree (with the
natural-language fallback), collapse, and materialize.  Tree mode never fills
`contents`. -/
def scaffold_project_tree (prompt target_path : List Char) (overwrite dry_run : Bool)
    (base : AbsPath) (fs : FS) : Outcome :=
  let items0 := parse_ascii_tree prompt
  let items := if items0.isEmpty then nlFallback prompt else items0
  scaffold_core "tree".data (collapse_tree items) [] base target_path overwrite dry_run fs

/-- `scaffold_project` in `yaml`/`json` mode, over the already-decoded value:
parse the structured data (a `SpecError` is wrapped in the
`"Failed to parse prompt as ..."` message), collect `paths` and the `contents`
dict, and materialize. -/
def scaffold_project_structured (selected : List Char) (data : JVal) (target_path : List Char)
    (overwrite dry_run : Bool) (base : AbsPath) (fs : FS) : Outcome :=
  match parse_yaml_or_json data with
  | .error e =>
    ⟨fs, .error ("Failed to parse prompt as ".data ++ selected ++ ": ".data ++ e)⟩
  | .ok triples =>
    scaffold_core selected (triples.map fun t => (t.1, t.2.1))
      (triples.filterMap fun t => if t.2.1 then none else some (t.1, t.2.2))
      base target_path overwrite dry_run fs

/-! ## Basic lemmas about the filesystem model -/

theorem FS.lookup_insert (fs : FS) (p : AbsPath) (n : FSNode) (q : AbsPath) :
    (fs.insert p n).lookup q = if q = p then some n else fs.lookup q := by
  by_cases h : q = p
  · subst h; simp [FS.insert, FS.lookup, List.find?_cons]
  · have : ((p, n).1 == q) = false := by
      simp only [beq_eq_false_iff_ne, ne_eq]
      exact fun hc => h hc.symm
    simp [FS.insert, FS.lookup, List.find?_cons, this, h]

theorem prefix_dropLast_of_proper {α : Type _} {q p : List α} (h : q <+: p) (hne : q ≠ p) :
    q <+: p.dropLast := by
  have hlt : q.length < p.length := by
    rcases Nat.lt_or_ge q.length p.length with h' | h'
    · exact h'
    · exact absurd (h.eq_of_length (Nat.le_antisymm h.length_le h')) hne
  have hq : q = p.take q.length := List.prefix_iff_eq_take.mp h
  rw [List.dropLast_eq_take]
  rw [List.prefix_iff_eq_take, List.take_take]
  rw [inf_of_le_left (by omega)]
  exact hq

theorem prefix_trans_dropLast {α : Type _} {q p : List α} (h : q <+: p.dropLast) : q <+: p :=
  h.trans (List.dropLast_prefix p)

/-! ## Lemmas about `mkdirRec` -/

theorem mkdirRec_nil (fs : FS) (fuel : Nat) : mkdirRec fs fuel [] = .ok fs := by
  cases fuel <;> rfl

theorem mkdirRec_ok_lookup {fs fs' : FS} {fuel : Nat} {p : AbsPath}
    (h : mkdirRec fs fuel p = .ok fs') (hp : p ≠ []) : fs'.lookup p = some .dir := by
  match fuel, p with
  | _, [] => exact absurd rfl hp
  | 0, x :: xs => simp [mkdirRec] at h
  | fuel + 1, x :: xs =>
    rw [mkdirRec] at h
    rcases hl : FS.lookup fs (x :: xs) with _ | n
    · rw [hl] at h
      rcases hrec : mkdirRec fs fuel (x :: xs).dropLast with e | fs''
      · rw [hrec] at h; exact absurd h (by simp)
      · rw [hrec] at h
        have : fs' = fs''.insert (x :: xs) .dir := by
          injection h with h; exact h.symm
        subst this
        rw [FS.lookup_insert]; simp
    · cases n with
      | dir =>
        rw [hl] at h
        have : fs' = fs := by injection h with h; exact h.symm
        subst this; exact hl
      | file c => rw [hl] at h; exact absurd h (by simp)

theorem mkdirRec_effects {fuel : Nat} : ∀ {fs fs' : FS} {p : AbsPath},
    mkdirRec fs fuel p = .ok fs' →
    ∀ q, fs'.lookup q = fs.lookup q ∨
      (fs.lookup q = none ∧ fs'.lookup q = some .dir ∧ q ≠ [] ∧ q <+: p) := by
  induction fuel with
  | zero =>
    intro fs fs' p h q
    match p with
    | [] => rw [mkdirRec_nil] at h; injection h with h; subst h; exact Or.inl rfl
    | x :: xs => simp [mkdirRec] at h
  | succ fuel ih =>
    intro fs fs' p h q
    match p with
    | [] => rw [mkdirRec_nil] at h; injection h with h; subst h; exact Or.inl rfl
    | x :: xs =>
      rw [mkdirRec] at h
      rcases hl : FS.lookup fs (x :: xs) with _ | n
      · rw [hl] at h
        rcases hrec : mkdirRec fs fuel (x :: xs).dropLast with e | fs''
        · rw [hrec] at h; exact absurd h (by simp)
        · rw [hrec] at h
          have hfs' : fs' = fs''.insert (x :: xs) .dir := by injection h with h; exact h.symm
          subst hfs'
          rw [FS.lookup_insert]
          by_cases hq : q = x :: xs
          · subst hq
            simp only [if_pos rfl]
            exact Or.inr ⟨hl, rfl, by simp, List.prefix_refl _⟩
          · rw [if_neg hq]
            rcases ih hrec q with h' | ⟨h1, h2, h3, h4⟩
            · exact Or.inl h'
            · exact Or.inr ⟨h1, h2, h3, prefix_trans_dropLast h4⟩
      · cases n with
        | dir =>
          rw [hl] at h
          have : fs' = fs := by injection h with h; exact h.symm
          subst this; exact Or.inl rfl
        | file c => rw [hl] at h; exact absurd h (by simp)

theorem mkdirRec_persist {fuel : Nat} {fs fs' : FS} {p q : AbsPath} {n : FSNode}
    (h : mkdirRec fs fuel p = .ok fs') (hq : fs.lookup q = some n) :
    fs'.lookup q = some n := by
  rcases mkdirRec_effects h q with h' | ⟨h1, _⟩
  · rw [h', hq]
  · rw [hq] at h1; exact absurd h1 (by simp)

theorem mkdirRec_ok_of_clean {fuel : Nat} : ∀ {fs : FS} {p : AbsPath},
    p.length ≤ fuel →
    (∀ q, q <+: p → fs.lookup q = none ∨ fs.lookup q = some .dir) →
    ∃ fs', mkdirRec fs fuel p = .ok fs' := by
  induction fuel with
  | zero =>
    intro fs p hlen _
    match p with
    | [] => exact ⟨fs, mkdirRec_nil fs 0⟩
    | x :: xs => simp at hlen
  | succ fuel ih =>
    intro fs p hlen hclean
    match p with
    | [] => exact ⟨fs, mkdirRec_nil fs _⟩
    | x :: xs =>
      rcases hclean (x :: xs) (List.prefix_refl _) with hl | hl
      · have hlen' : (x :: xs).dropLast.length ≤ fuel := by
          rw [List.length_dropLast]; simp at hlen ⊢; omega
        have hclean' : ∀ q, q <+: (x :: xs).dropLast →
            fs.lookup q = none ∨ fs.lookup q = some .dir :=
          fun q hq => hclean q (prefix_trans_dropLast hq)
        rcases ih hlen' hclean' with ⟨fs'', hrec⟩
        refine ⟨fs''.insert (x :: xs) .dir, ?_⟩
        rw [mkdirRec, hl, hrec]
      · refine ⟨fs, ?_⟩
        rw [mkdirRec, hl]

/-- A filesystem state that could exist on a real disk: the root is implicit,
and every strict, non-root ancestor of an existing object is a directory. -/
def ConsistentFS (fs : FS) : Prop :=
  fs.lookup [] = none ∧
  ∀ p n, fs.lookup p = some n → ∀ q, q <+: p → q ≠ p → q ≠ [] → fs.lookup q = some .dir

theorem mkdirRec_clean_of_ok {fuel : Nat} : ∀ {fs fs' : FS} {p : AbsPath},
    ConsistentFS fs → mkdirRec fs fuel p = .ok fs' →
    ∀ q, q <+: p → fs.lookup q = none ∨ fs.lookup q = some .dir := by
  induction fuel with
  | zero =>
    intro fs fs' p hc h q hq
    match p with
    | [] =>
      have : q = [] := List.prefix_nil.mp hq
      subst this; exact Or.inl hc.1
    | x :: xs => simp [mkdirRec] at h
  | succ fuel ih =>
    intro fs fs' p hc h q hq
    match p with
    | [] =>
      have : q = [] := List.prefix_nil.mp hq
      subst this; exact Or.inl hc.1
    | x :: xs =>
      rw [mkdirRec] at h
      rcases hl : FS.lookup fs (x :: xs) with _ | n
      · by_cases hqp : q = x :: xs
        · subst hqp; exact Or.inl hl
        · rw [hl] at h
          rcases hrec : mkdirRec fs fuel (x :: xs).dropLast with e | fs''
          · rw [hrec] at h; exact absurd h (by simp)
          · exact ih hc hrec q (prefix_dropLast_of_proper hq hqp)
      · cases n with
        | dir =>
          by_cases hqp : q = x :: xs
          · subst hqp; exact Or.inr hl
          · by_cases hq0 : q = []
            · subst hq0; exact Or.inl hc.1
            · exact Or.inr (hc.2 (x :: xs) _ hl q hq hqp hq0)
        | file c => rw [hl] at h; exact absurd h (by simp)

theorem mkdirRec_consistent {fuel : Nat} : ∀ {fs fs' : FS} {p : AbsPath},
    ConsistentFS fs → mkdirRec fs fuel p = .ok fs' → ConsistentFS fs' := by
  induction fuel with
  | zero =>
    intro fs fs' p hc h
    match p with
    | [] => rw [mkdirRec_nil] at h; injection h with h; subst h; exact hc
    | x :: xs => simp [mkdirRec] at h
  | succ fuel ih =>
    intro fs fs' p hc h
    match p with
    | [] => rw [mkdirRec_nil] at h; injection h with h; subst h; exact hc
    | x :: xs =>
      rw [mkdirRec] at h
      rcases hl : FS.lookup fs (x :: xs) with _ | n
      · rw [hl] at h
        rcases hrec : mkdirRec fs fuel (x :: xs).dropLast with e | fs''
        · rw [hrec] at h; exact absurd h (by simp)
        · rw [hrec] at h
          have hfs' : fs' = fs''.insert (x :: xs) .dir := by injection h with h; exact h.symm
          subst hfs'
          have hc'' : ConsistentFS fs'' := ih hc hrec
          constructor
          · rw [FS.lookup_insert, if_neg (by simp)]; exact hc''.1
          · intro r m hr s hs hsr hs0
            rw [FS.lookup_insert] at hr ⊢
            by_cases hsp : s = x :: xs
            · subst hsp; rw [if_pos rfl]
            · rw [if_neg hsp]
              by_cases hrp : r = x :: xs
              · subst hrp
                rw [if_pos rfl] at hr
                -- s is a proper non-root ancestor of the new directory
                have hs' : s <+: (x :: xs).dropLast := prefix_dropLast_of_proper hs hsp
                by_cases hsd : s = (x :: xs).dropLast
                · subst hsd
                  exact mkdirRec_ok_lookup hrec hs0
                · have hd0 : (x :: xs).dropLast ≠ [] := by
                    intro hd
                    rw [hd] at hs'
                    exact hs0 (List.prefix_nil.mp hs')
                  have hdl : fs''.lookup (x :: xs).dropLast = some .dir :=
                    mkdirRec_ok_lookup hrec hd0
                  exact hc''.2 _ _ hdl s hs' hsd hs0
              · rw [if_neg hrp] at hr
                exact hc''.2 r m hr s hs hsr hs0
      · cases n with
        | dir =>
          rw [hl] at h
          have : fs' = fs := by injection h with h; exact h.symm
          subst this; exact hc
        | file c => rw [hl] at h; exact absurd h (by simp)

/-- `mkdirParents` inherits all `mkdirRec` lemmas at fuel `p.length`. -/
theorem mkdirParents_file {fs : FS} {p : AbsPath} {c : List Char}
    (hl : fs.lookup p = some (.file c)) (hp : p ≠ []) :
    mkdirParents fs p = .error "FileExistsError".data := by
  match p with
  | [] => exact absurd rfl hp
  | x :: xs =>
    rw [mkdirParents]
    have : (x :: xs).length = xs.length + 1 := rfl
    rw [this, mkdirRec, hl]

theorem mkdirParents_dir {fs : FS} {p : AbsPath} (hl : fs.lookup p = some .dir) :
    mkdirParents fs p = .ok fs := by
  match p with
  | [] => exact mkdirRec_nil fs _
  | x :: xs =>
    rw [mkdirParents]
    have : (x :: xs).length = xs.length + 1 := rfl
    rw [this, mkdirRec, hl]

/-! ## Lemmas about `writeFile` -/

theorem writeFile_ok_facts {fs fs' : FS} {p : AbsPath} {c : List Char}
    (h : writeFile fs p c = .ok fs') :
    p ≠ [] ∧ (p.dropLast = [] ∨ fs.lookup p.dropLast = some .dir) ∧
      fs.lookup p ≠ some .dir ∧ fs' = fs.insert p (.file c) := by
  match p with
  | [] => simp [writeFile] at h
  | x :: xs =>
    rw [writeFile] at h
    by_cases hcond : (x :: xs).dropLast = [] ∨ fs.lookup (x :: xs).dropLast = some .dir
    · rw [if_pos hcond] at h
      rcases hl : FS.lookup fs (x :: xs) with _ | n
      · rw [hl] at h
        refine ⟨by simp, hcond, by simp [hl], ?_⟩
        injection h with h; exact h.symm
      · cases n with
        | dir => rw [hl] at h; exact absurd h (by simp)
        | file c' =>
          rw [hl] at h
          refine ⟨by simp, hcond, by simp [hl], ?_⟩
          injection h with h; exact h.symm
    · rw [if_neg hcond] at h; exact absurd h (by simp)

theorem writeFile_ok_of {fs : FS} {p : AbsPath} {c : List Char} (hp : p ≠ [])
    (hpar : p.dropLast = [] ∨ fs.lookup p.dropLast = some .dir)
    (hnd : fs.lookup p ≠ some .dir) :
    writeFile fs p c = .ok (fs.insert p (.file c)) := by
  match p with
  | [] => exact absurd rfl hp
  | x :: xs =>
    rw [writeFile, if_pos hpar]
    rcases hl : FS.lookup fs (x :: xs) with _ | n
    · rfl
    · cases n with
      | dir => exact absurd hl hnd
      | file c' => rfl

theorem writeFile_consistent {fs fs' : FS} {p : AbsPath} {c : List Char}
    (hc : ConsistentFS fs) (h : writeFile fs p c = .ok fs') : ConsistentFS fs' := by
  obtain ⟨hp, hpar, hnd, hfs'⟩ := writeFile_ok_facts h
  subst hfs'
  constructor
  · rw [FS.lookup_insert, if_neg (fun he => hp he.symm)]; exact hc.1
  · intro r m hr s hs hsr hs0
    rw [FS.lookup_insert] at hr ⊢
    by_cases hsp : s = p
    · -- `s = p` would make the freshly written file an ancestor of `r`
      exfalso
      by_cases hrp : r = p
      · exact hsr (hsp.trans hrp.symm)
      · rw [if_neg hrp] at hr
        exact hnd (hsp ▸ hc.2 r m hr s hs hsr hs0)
    · rw [if_neg hsp]
      by_cases hrp : r = p
      · -- ancestors of `p`: its parent is a directory, deeper ones by consistency
        rw [hrp] at hs hsr
        have hs' : s <+: p.dropLast := prefix_dropLast_of_proper hs hsr
        rcases hpar with hd | hd
        · rw [hd] at hs'
          exact absurd (List.prefix_nil.mp hs') hs0
        · by_cases hsd : s = p.dropLast
          · rw [hsd]; exact hd
          · exact hc.2 _ _ hd s hs' hsd hs0
      · rw [if_neg hrp] at hr
        exact hc.2 r m hr s hs hsr hs0

/-! ## Lemmas about `processEntry` (all for `overwrite = false` where the flag
matters) -/

theorem processEntry_skip {ct : List (List Char × Option (List Char))} {fs : FS}
    {a : AbsPath} {rel : List Char} {n : FSNode} (hl : fs.lookup a = some n) :
    processEntry false ct fs a rel false = (fs, .skippedTag) := by
  simp [processEntry, hl]

theorem processEntry_dir_on_file {ow : Bool} {ct : List (List Char × Option (List Char))}
    {fs : FS} {a : AbsPath} {rel : List Char} {c : List Char}
    (hl : fs.lookup a = some (.file c)) (ha : a ≠ []) :
    processEntry ow ct fs a rel true = (fs, .erroredTag "FileExistsError".data) := by
  simp [processEntry, mkdirParents_file hl ha]

theorem processEntry_dir_on_dir {ow : Bool} {ct : List (List Char × Option (List Char))}
    {fs : FS} {a : AbsPath} {rel : List Char} (hl : fs.lookup a = some .dir) :
    processEntry ow ct fs a rel true = (fs, .createdTag) := by
  simp [processEntry, mkdirParents_dir hl]

theorem not_prefix_dropLast_self {α : Type _} {p : List α} (hp : p ≠ []) :
    ¬ p <+: p.dropLast := by
  intro h
  have h1 := h.length_le
  rw [List.length_dropLast] at h1
  have h2 : 0 < p.length := List.length_pos.mpr hp
  omega

/-- Shape of the file branch when the target does not yet exist. -/
theorem processEntry_false_eq {ow : Bool} {ct : List (List Char × Option (List Char))} {fs : FS}
    {a : AbsPath} {rel : List Char} (hl : fs.lookup a = none) :
    processEntry ow ct fs a rel false =
      (match mkdirParents fs a.dropLast with
       | .error m => (fs, .erroredTag m)
       | .ok fs' =>
         match writeFile fs' a (effContent ct rel) with
         | .error m => (fs', .erroredTag m)
         | .ok fs'' => (fs'', .createdTag)) := by
  simp [processEntry, hl]

theorem processEntry_file_create {ct : List (List Char × Option (List Char))} {fs : FS}
    {a : AbsPath} {rel : List Char} (hl : fs.lookup a = none) (ha : a ≠ [])
    (hclean : ∀ q, q <+: a.dropLast → fs.lookup q = none ∨ fs.lookup q = some .dir) :
    ∃ fs', mkdirParents fs a.dropLast = .ok fs' ∧
      processEntry false ct fs a rel false =
        (fs'.insert a (.file (effContent ct rel)), .createdTag) := by
  obtain ⟨fs', hmk⟩ := mkdirRec_ok_of_clean (Nat.le_refl _) hclean
  refine ⟨fs', hmk, ?_⟩
  have ha' : fs'.lookup a = none := by
    rcases mkdirRec_effects hmk a with h' | ⟨_, _, _, h4⟩
    · rw [h', hl]
    · exact absurd h4 (not_prefix_dropLast_self ha)
  have hpar : a.dropLast = [] ∨ fs'.lookup a.dropLast = some .dir := by
    by_cases hd : a.dropLast = []
    · exact Or.inl hd
    · exact Or.inr (mkdirRec_ok_lookup hmk hd)
  have hw : writeFile fs' a (effContent ct rel) = .ok (fs'.insert a (.file (effContent ct rel))) :=
    writeFile_ok_of ha hpar (by rw [ha']; simp)
  have hmk' : mkdirParents fs a.dropLast = .ok fs' := hmk
  rw [processEntry_false_eq hl, hmk']
  simp [hw]

/-- Everything `processEntry` (with `overwrite = false`) can do to the
filesystem: leave a path alone, create a directory at a missing path on the
way to the entry's absolute path (for a file entry: strictly above it), or
write the entry's file at its own missing path. -/
theorem processEntry_effects {ct : List (List Char × Option (List Char))} {fs : FS}
    {a : AbsPath} {rel : List Char} {isd : Bool} (q : AbsPath) :
    ((processEntry false ct fs a rel isd).1).lookup q = fs.lookup q ∨
      (fs.lookup q = none ∧ q ≠ [] ∧
        ((((processEntry false ct fs a rel isd).1).lookup q = some .dir ∧
           ((isd = true ∧ q <+: a) ∨ (isd = false ∧ q <+: a.dropLast))) ∨
         (((processEntry false ct fs a rel isd).1).lookup q = some (.file (effContent ct rel)) ∧
           q = a ∧ isd = false))) := by
  cases isd with
  | true =>
    rcases hmk : mkdirParents fs a with e | fs'
    · left; simp [processEntry, hmk]
    · have hres : (processEntry false ct fs a rel true).1 = fs' := by simp [processEntry, hmk]
      rw [hres]
      rcases mkdirRec_effects hmk q with h' | ⟨h1, h2, h3, h4⟩
      · exact Or.inl h'
      · exact Or.inr ⟨h1, h3, Or.inl ⟨h2, Or.inl ⟨rfl, h4⟩⟩⟩
  | false =>
    rcases hl : fs.lookup a with _ | n
    · rcases hmk : mkdirParents fs a.dropLast with e | fs'
      · left; rw [processEntry_false_eq hl, hmk]
      · rcases hw : writeFile fs' a (effContent ct rel) with e | fs''
        · have hres : (processEntry false ct fs a rel false).1 = fs' := by
            rw [processEntry_false_eq hl, hmk]; simp [hw]
          rw [hres]
          rcases mkdirRec_effects hmk q with h' | ⟨h1, h2, h3, h4⟩
          · exact Or.inl h'
          · exact Or.inr ⟨h1, h3, Or.inl ⟨h2, Or.inr ⟨rfl, h4⟩⟩⟩
        · have hres : (processEntry false ct fs a rel false).1 = fs'' := by
            rw [processEntry_false_eq hl, hmk]; simp [hw]
          rw [hres]
          obtain ⟨hane, _, _, hfs''⟩ := writeFile_ok_facts hw
          subst hfs''
          rw [FS.lookup_insert]
          by_cases hqa : q = a
          · rw [if_pos hqa]
            have hq0 : fs.lookup q = none := by rw [hqa]; exact hl
            have hqne : q ≠ [] := by rw [hqa]; exact hane
            exact Or.inr ⟨hq0, hqne, Or.inr ⟨rfl, hqa, rfl⟩⟩
          · rw [if_neg hqa]
            rcases mkdirRec_effects hmk q with h' | ⟨h1, h2, h3, h4⟩
            · exact Or.inl h'
            · exact Or.inr ⟨h1, h3, Or.inl ⟨h2, Or.inr ⟨rfl, h4⟩⟩⟩
    · left
      rw [processEntry_skip hl]

theorem processEntry_persist {ct : List (List Char × Option (List Char))} {fs : FS}
    {a : AbsPath} {rel : List Char} {isd : Bool} {q : AbsPath} {n : FSNode}
    (hq : fs.lookup q = some n) :
    ((processEntry false ct fs a rel isd).1).lookup q = some n := by
  rcases @processEntry_effects ct fs a rel isd q
    with h' | ⟨h1, _⟩
  · rw [h', hq]
  · rw [hq] at h1; exact absurd h1 (by simp)

theorem processEntry_consistent {ow : Bool} {ct : List (List Char × Option (List Char))}
    {fs : FS} {a : AbsPath} {rel : List Char} {isd : Bool} (hc : ConsistentFS fs) :
    ConsistentFS ((processEntry ow ct fs a rel isd).1) := by
  cases isd with
  | true =>
    rcases hmk : mkdirParents fs a with e | fs'
    · simpa [processEntry, hmk] using hc
    · have : (processEntry ow ct fs a rel true).1 = fs' := by simp [processEntry, hmk]
      rw [this]
      exact mkdirRec_consistent hc hmk
  | false =>
    by_cases hex : (fs.lookup a).isSome && !ow
    · simpa [processEntry, hex] using hc
    · rcases hmk : mkdirParents fs a.dropLast with e | fs'
      · simpa [processEntry, hex, hmk] using hc
      · have hc' : ConsistentFS fs' := mkdirRec_consistent hc hmk
        rcases hw : writeFile fs' a (effContent ct rel) with e | fs''
        · have : (processEntry ow ct fs a rel false).1 = fs' := by
            simp [processEntry, hex, hmk, hw]
          rw [this]; exact hc'
        · have : (processEntry ow ct fs a rel false).1 = fs'' := by
            simp [processEntry, hex, hmk, hw]
          rw [this]; exact writeFile_consistent hc' hw

/-- The file branch that ends in `created` leaves the entry's file at its
absolute path. -/
theorem processEntry_created_file {ct : List (List Char × Option (List Char))} {fs : FS}
    {a : AbsPath} {rel : List Char}
    (h : (processEntry false ct fs a rel false).2 = .createdTag) :
    ((processEntry false ct fs a rel false).1).lookup a = some (.file (effContent ct rel)) := by
  rcases hl : fs.lookup a with _ | n
  · rcases hmk : mkdirParents fs a.dropLast with e | fs'
    · rw [processEntry_false_eq hl, hmk] at h; simp at h
    · rcases hw : writeFile fs' a (effContent ct rel) with e | fs''
      · rw [processEntry_false_eq hl, hmk] at h; simp [hw] at h
      · have hres : (processEntry false ct fs a rel false).1 = fs'' := by
          rw [processEntry_false_eq hl, hmk]; simp [hw]
        rw [hres]
        obtain ⟨_, _, _, hfs''⟩ := writeFile_ok_facts hw
        subst hfs''
        rw [FS.lookup_insert, if_pos rfl]
  · rw [processEntry_skip hl] at h; simp at h

/-! ## Lemmas about `runEntries` -/

theorem runEntries_nil {ow : Bool} {ct : List (List Char × Option (List Char))}
    {bt : AbsPath} {fs : FS} : runEntries ow ct bt fs [] = (fs, [], none) := rfl

theorem runEntries_cons_ok {ow : Bool} {ct : List (List Char × Option (List Char))}
    {bt : AbsPath} {fs : FS} {rel : List Char} {isd : Bool} {rest : List (List Char × Bool)}
    {a : AbsPath} (hs : safe_join bt rel = .ok a) :
    runEntries ow ct bt fs ((rel, isd) :: rest) =
      ((runEntries ow ct bt (processEntry ow ct fs a rel isd).1 rest).1,
       (rel, isd, a, (processEntry ow ct fs a rel isd).2) ::
         (runEntries ow ct bt (processEntry ow ct fs a rel isd).1 rest).2.1,
       (runEntries ow ct bt (processEntry ow ct fs a rel isd).1 rest).2.2) := by
  rw [runEntries, hs]

theorem runEntries_cons_err {ow : Bool} {ct : List (List Char × Option (List Char))}
    {bt : AbsPath} {fs : FS} {rel : List Char} {isd : Bool} {rest : List (List Char × Bool)}
    {e : List Char} (hs : safe_join bt rel = .error e) :
    runEntries ow ct bt fs ((rel, isd) :: rest) = (fs, [], some e) := by
  rw [runEntries, hs]

theorem runEntries_persist {ct : List (List Char × Option (List Char))} {bt : AbsPath}
    {q : AbsPath} {n : FSNode} :
    ∀ {l : List (List Char × Bool)} {fs : FS}, fs.lookup q = some n →
      ((runEntries false ct bt fs l).1).lookup q = some n := by
  intro l
  induction l with
  | nil => intro fs hq; rw [runEntries_nil]; exact hq
  | cons x rest ih =>
    intro fs hq
    rcases x with ⟨rel, isd⟩
    rcases hs : safe_join bt rel with e | a
    · rw [runEntries_cons_err hs]; exact hq
    · rw [runEntries_cons_ok hs]
      exact ih (processEntry_persist hq)

theorem runEntries_consistent {ct : List (List Char × Option (List Char))} {bt : AbsPath} :
    ∀ {l : List (List Char × Bool)} {fs : FS}, ConsistentFS fs →
      ConsistentFS ((runEntries false ct bt fs l).1) := by
  intro l
  induction l with
  | nil => intro fs hc; rw [runEntries_nil]; exact hc
  | cons x rest ih =>
    intro fs hc
    rcases x with ⟨rel, isd⟩
    rcases hs : safe_join bt rel with e | a
    · rw [runEntries_cons_err hs]; exact hc
    · rw [runEntries_cons_ok hs]
      exact ih (processEntry_consistent hc)

theorem runEntries_no_abort {ow : Bool} {ct : List (List Char × Option (List Char))}
    {bt : AbsPath} :
    ∀ {l : List (List Char × Bool)} {fs : FS}, (∀ x ∈ l, ∃ a, safe_join bt x.1 = .ok a) →
      ((runEntries ow ct bt fs l).2.2) = none := by
  intro l
  induction l with
  | nil => intro fs _; rfl
  | cons x rest ih =>
    intro fs hall
    rcases x with ⟨rel, isd⟩
    obtain ⟨a, hs⟩ := hall (rel, isd) (List.mem_cons_self _ _)
    rw [runEntries_cons_ok hs]
    exact ih fun y hy => hall y (List.mem_cons_of_mem _ hy)

/-- A `safe_join` failure aborts the run: the filesystem keeps the mutations
of the preceding entries, and the error is the raised `SpecError`. -/
theorem runEntries_abort {ow : Bool} {ct : List (List Char × Option (List Char))}
    {bt : AbsPath} {rel : List Char} {isd : Bool} {l2 : List (List Char × Bool)}
    {e : List Char} (he : safe_join bt rel = .error e) :
    ∀ {l1 : List (List Char × Bool)} {fs : FS}, (∀ x ∈ l1, ∃ a, safe_join bt x.1 = .ok a) →
      (runEntries ow ct bt fs (l1 ++ (rel, isd) :: l2)).1 = (runEntries ow ct bt fs l1).1 ∧
      (runEntries ow ct bt fs (l1 ++ (rel, isd) :: l2)).2.2 = some e := by
  intro l1
  induction l1 with
  | nil =>
    intro fs _
    rw [List.nil_append, runEntries_cons_err he, runEntries_nil]
    exact ⟨rfl, rfl⟩
  | cons x rest ih =>
    intro fs hall
    rcases x with ⟨r, d⟩
    obtain ⟨a, hs⟩ := hall (r, d) (List.mem_cons_self _ _)
    rw [List.cons_append, runEntries_cons_ok hs, runEntries_cons_ok hs]
    exact ih fun y hy => hall y (List.mem_cons_of_mem _ hy)

/-- Every trace element comes from an entry of the list, with its `safe_join`
result. -/
theorem runEntries_trace_shape {ow : Bool} {ct : List (List Char × Option (List Char))}
    {bt : AbsPath} :
    ∀ {l : List (List Char × Bool)} {fs : FS},
      ∀ x ∈ (runEntries ow ct bt fs l).2.1,
        (x.1, x.2.1) ∈ l ∧ safe_join bt x.1 = .ok x.2.2.1 := by
  intro l
  induction l with
  | nil => intro fs x hx; rw [runEntries_nil] at hx; exact absurd hx (by simp)
  | cons y rest ih =>
    intro fs x hx
    rcases y with ⟨rel, isd⟩
    rcases hs : safe_join bt rel with e | a
    · rw [runEntries_cons_err hs] at hx; exact absurd hx (by simp)
    · rw [runEntries_cons_ok hs] at hx
      rcases List.mem_cons.mp hx with h | h
      · subst h
        exact ⟨List.mem_cons_self _ _, hs⟩
      · obtain ⟨h1, h2⟩ := ih x h
        exact ⟨List.mem_cons_of_mem _ h1, h2⟩

/-- A file entry traced `created` leaves its file on the final filesystem. -/
theorem runEntries_created_file {ct : List (List Char × Option (List Char))} {bt : AbsPath} :
    ∀ {l : List (List Char × Bool)} {fs : FS} {rel : List Char} {a : AbsPath},
      (rel, false, a, EntryTag.createdTag) ∈ (runEntries false ct bt fs l).2.1 →
      ((runEntries false ct bt fs l).1).lookup a = some (.file (effContent ct rel)) := by
  intro l
  induction l with
  | nil => intro fs rel a h; rw [runEntries_nil] at h; exact absurd h (by simp)
  | cons y rest ih =>
    intro fs rel a h
    rcases y with ⟨r, d⟩
    rcases hs : safe_join bt r with e | b
    · rw [runEntries_cons_err hs] at h; exact absurd h (by simp)
    · rw [runEntries_cons_ok hs] at h ⊢
      rcases List.mem_cons.mp h with h' | h'
      · have hr : r = rel := (congrArg (·.1) h').symm
        have hd : d = false := (congrArg (·.2.1) h').symm
        have hb : b = a := (congrArg (·.2.2.1) h').symm
        have ht : (processEntry false ct fs b r d).2 = .createdTag := by
          have := (congrArg (·.2.2.2) h').symm
          simpa using this
        subst hr; subst hd; subst hb
        exact runEntries_persist (processEntry_created_file ht)
      · exact ih h'

/-- Once a file sits at `a`, no later entry resolving to `a` is tagged
`created` (with `overwrite = false`). -/
theorem runEntries_file_blocks_created {ct : List (List Char × Option (List Char))}
    {bt : AbsPath} {a : AbsPath} {c : List Char} (ha : a ≠ []) :
    ∀ {l : List (List Char × Bool)} {fs : FS}, fs.lookup a = some (.file c) →
      ∀ x ∈ (runEntries false ct bt fs l).2.1, x.2.2.1 = a → x.2.2.2 ≠ EntryTag.createdTag := by
  intro l
  induction l with
  | nil => intro fs _ x hx; rw [runEntries_nil] at hx; exact absurd hx (by simp)
  | cons y rest ih =>
    intro fs hfs x hx hxa
    rcases y with ⟨r, d⟩
    rcases hs : safe_join bt r with e | b
    · rw [runEntries_cons_err hs] at hx; exact absurd hx (by simp)
    · rw [runEntries_cons_ok hs] at hx
      rcases List.mem_cons.mp hx with h' | h'
      · subst h'
        simp only at hxa
        subst hxa
        cases d with
        | true =>
          rw [processEntry_dir_on_file hfs ha]
          simp
        | false =>
          rw [processEntry_skip hfs]
          simp
      · exact ih (processEntry_persist hfs) x h' hxa

/-- A directory already present at `a` makes any dir entry resolving to `a`
trace `created`. -/
theorem runEntries_dir_created {ct : List (List Char × Option (List Char))} {bt : AbsPath}
    {rel : List Char} {a : AbsPath} (hs : safe_join bt rel = .ok a) :
    ∀ {l : List (List Char × Bool)} {fs : FS}, (∀ x ∈ l, ∃ b, safe_join bt x.1 = .ok b) →
      (rel, true) ∈ l → fs.lookup a = some .dir →
      (rel, true, a, EntryTag.createdTag) ∈ (runEntries false ct bt fs l).2.1 := by
  intro l
  induction l with
  | nil => intro fs _ h _; exact absurd h (by simp)
  | cons y rest ih =>
    intro fs hall hmem hdir
    rcases y with ⟨r, d⟩
    rcases List.mem_cons.mp hmem with h' | h'
    · have hr : r = rel := congrArg (·.1) h'.symm
      have hd : d = true := congrArg (·.2) h'.symm
      subst hr; subst hd
      rw [runEntries_cons_ok hs, processEntry_dir_on_dir hdir]
      simp
    · obtain ⟨b, hsr⟩ := hall (r, d) (List.mem_cons_self _ _)
      rw [runEntries_cons_ok hsr]
      exact List.mem_cons_of_mem _
        (ih (fun y hy => hall y (List.mem_cons_of_mem _ hy)) h' (processEntry_persist hdir))

/-- An existing object at `a` makes any file entry resolving to `a` trace
`skipped` (with `overwrite = false`). -/
theorem runEntries_exists_skipped {ct : List (List Char × Option (List Char))} {bt : AbsPath}
    {rel : List Char} {a : AbsPath} {n : FSNode} (hs : safe_join bt rel = .ok a) :
    ∀ {l : List (List Char × Bool)} {fs : FS}, (∀ x ∈ l, ∃ b, safe_join bt x.1 = .ok b) →
      (rel, false) ∈ l → fs.lookup a = some n →
      (rel, false, a, EntryTag.skippedTag) ∈ (runEntries false ct bt fs l).2.1 := by
  intro l
  induction l with
  | nil => intro fs _ h _; exact absurd h (by simp)
  | cons y rest ih =>
    intro fs hall hmem hex
    rcases y with ⟨r, d⟩
    rcases List.mem_cons.mp hmem with h' | h'
    · have hr : r = rel := congrArg (·.1) h'.symm
      have hd : d = false := congrArg (·.2) h'.symm
      subst hr; subst hd
      rw [runEntries_cons_ok hs, processEntry_skip hex]
      simp
    · obtain ⟨b, hsr⟩ := hall (r, d) (List.mem_cons_self _ _)
      rw [runEntries_cons_ok hsr]
      exact List.mem_cons_of_mem _
        (ih (fun y hy => hall y (List.mem_cons_of_mem _ hy)) h' (processEntry_persist hex))

/-! ## Membership in the three result lists -/

theorem mem_createdOf {tr : List (List Char × Bool × AbsPath × EntryTag)} {s : List Char} :
    s ∈ createdOf tr ↔
      ∃ rel isd a, (rel, isd, a, EntryTag.createdTag) ∈ tr ∧ s = pathStr a := by
  simp only [createdOf, List.mem_filterMap]
  constructor
  · rintro ⟨⟨rel, isd, a, t⟩, hmem, hf⟩
    cases t with
    | createdTag => exact ⟨rel, isd, a, hmem, by simpa using hf.symm⟩
    | skippedTag => simp at hf
    | erroredTag m => simp at hf
  · rintro ⟨rel, isd, a, hmem, rfl⟩
    exact ⟨(rel, isd, a, .createdTag), hmem, rfl⟩

theorem mem_skippedOf {tr : List (List Char × Bool × AbsPath × EntryTag)} {s : List Char} :
    s ∈ skippedOf tr ↔
      ∃ rel isd a, (rel, isd, a, EntryTag.skippedTag) ∈ tr ∧ s = pathStr a := by
  simp only [skippedOf, List.mem_filterMap]
  constructor
  · rintro ⟨⟨rel, isd, a, t⟩, hmem, hf⟩
    cases t with
    | skippedTag => exact ⟨rel, isd, a, hmem, by simpa using hf.symm⟩
    | createdTag => simp at hf
    | erroredTag m => simp at hf
  · rintro ⟨rel, isd, a, hmem, rfl⟩
    exact ⟨(rel, isd, a, .skippedTag), hmem, rfl⟩

theorem mem_errorsOf {tr : List (List Char × Bool × AbsPath × EntryTag)}
    {s m : List Char} :
    (s, m) ∈ errorsOf tr ↔
      ∃ rel isd a, (rel, isd, a, EntryTag.erroredTag m) ∈ tr ∧ s = pathStr a := by
  simp only [errorsOf, List.mem_filterMap]
  constructor
  · rintro ⟨⟨rel, isd, a, t⟩, hmem, hf⟩
    cases t with
    | erroredTag m' =>
      simp only [Option.some.injEq, Prod.mk.injEq] at hf
      obtain ⟨hf1, hf2⟩ := hf
      exact ⟨rel, isd, a, hf2 ▸ hmem, hf1.symm⟩
    | createdTag => simp at hf
    | skippedTag => simp at hf
  · rintro ⟨rel, isd, a, hmem, rfl⟩
    exact ⟨(rel, isd, a, .erroredTag m), hmem, rfl⟩

/-! ## Segment lists, `pathStr` injectivity, and `safe_join` on plain paths -/

theorem splitOnChar_ne_nil (c : Char) (t : List Char) : splitOnChar c t ≠ [] := by
  induction t with
  | nil => simp [splitOnChar]
  | cons x xs ih =>
    rw [splitOnChar]
    by_cases hx : x == c
    · simp [hx]
    · simp only [hx, Bool.false_eq_true, if_false]
      rcases hr : splitOnChar c xs with _ | ⟨h, t'⟩
      · exact absurd hr ih
      · simp

theorem splitOnChar_not_mem (c : Char) (t : List Char) :
    ∀ s ∈ splitOnChar c t, c ∉ s := by
  induction t with
  | nil => intro s hs; simp [splitOnChar] at hs; simp [hs]
  | cons x xs ih =>
    intro s hs
    rw [splitOnChar] at hs
    by_cases hx : x == c
    · simp only [hx, if_true] at hs
      rcases List.mem_cons.mp hs with h | h
      · simp [h]
      · exact ih s h
    · simp only [hx, Bool.false_eq_true, if_false] at hs
      rcases hr : splitOnChar c xs with _ | ⟨h0, t'⟩
      · exact absurd hr (splitOnChar_ne_nil c xs)
      · rw [hr] at hs
        rcases List.mem_cons.mp hs with h | h
        · subst h
          intro hc
          rcases List.mem_cons.mp hc with h' | h'
          · rw [h'] at hx; simp at hx
          · exact ih h0 (hr ▸ List.mem_cons_self _ _) h'
        · exact ih s (hr ▸ List.mem_cons_of_mem _ h)

theorem intercalate_single (sep a : List Char) : List.intercalate sep [a] = a := by
  simp [List.intercalate]

theorem intercalate_cons_cons (sep a b : List Char) (rest : List (List Char)) :
    List.intercalate sep (a :: b :: rest) = a ++ sep ++ List.intercalate sep (b :: rest) := by
  simp [List.intercalate, List.intersperse]

/-- Joining the pieces of `splitOnChar` with the separator restores the
string; in particular distinct piece lists come from distinct strings. -/
theorem intercalate_splitOnChar (c : Char) (s : List Char) :
    List.intercalate [c] (splitOnChar c s) = s := by
  induction s with
  | nil => simp [splitOnChar, intercalate_single]
  | cons x xs ih =>
    rw [splitOnChar]
    by_cases hx : x == c
    · have hxc : x = c := by simpa using hx
      simp only [hx, if_true]
      rcases hr : splitOnChar c xs with _ | ⟨h, t⟩
      · exact absurd hr (splitOnChar_ne_nil c xs)
      · rw [hr] at ih
        rw [intercalate_cons_cons, ih]
        simp [hxc]
    · simp only [hx, Bool.false_eq_true, if_false]
      rcases hr : splitOnChar c xs with _ | ⟨h, t⟩
      · exact absurd hr (splitOnChar_ne_nil c xs)
      · rw [hr] at ih
        show List.intercalate [c] ((x :: h) :: t) = x :: xs
        cases t with
        | nil =>
          rw [intercalate_single] at ih
          rw [intercalate_single, ih]
        | cons t1 t2 =>
          rw [intercalate_cons_cons]
          rw [intercalate_cons_cons] at ih
          rw [← ih]
          simp [List.cons_append, List.append_assoc]

/-- Resolved paths produced from real inputs: no empty segment, no `'/'`
inside a segment.  On such paths `pathStr` is injective. -/
def NicePath (p : AbsPath) : Prop := ∀ s ∈ p, s ≠ [] ∧ '/' ∉ s

theorem nicePath_nil : NicePath [] := fun s hs => absurd hs (List.not_mem_nil s)

theorem intercalate_nil (sep : List Char) :
    List.intercalate sep ([] : List (List Char)) = [] := rfl

theorem intercalate_cons_ne (a : List Char) {p' : AbsPath} (h : p' ≠ []) :
    List.intercalate ['/'] (a :: p') = a ++ '/' :: List.intercalate ['/'] p' := by
  rcases p' with _ | ⟨b, rest⟩
  · exact absurd rfl h
  · rw [intercalate_cons_cons]; simp

theorem intercalate_decomp (a : List Char) (p' : AbsPath) :
    ∃ r, List.intercalate ['/'] (a :: p') = a ++ r ∧
      (r = [] ∨ r.head? = some '/') ∧
      (p' = [] → r = []) ∧ (p' ≠ [] → r = '/' :: List.intercalate ['/'] p') := by
  rcases hp : p' with _ | ⟨b, rest⟩
  · exact ⟨[], by simp [intercalate_single], Or.inl rfl, fun _ => rfl, fun hc => absurd rfl hc⟩
  · refine ⟨'/' :: List.intercalate ['/'] (b :: rest), ?_, Or.inr rfl, by simp, fun _ => rfl⟩
    rw [intercalate_cons_cons]; simp

theorem takeWhile_sep {r : List Char} (hr : r = [] ∨ r.head? = some '/') :
    ∀ {a : List Char}, '/' ∉ a →
      ((a ++ r).takeWhile (fun ch => ch != '/') = a ∧
       (a ++ r).dropWhile (fun ch => ch != '/') = r) := by
  intro a
  induction a with
  | nil =>
    intro _
    rcases hr with h | h
    · subst h; simp
    · rcases r with _ | ⟨c, r'⟩
      · exact absurd h (by simp)
      · simp only [List.head?_cons, Option.some.injEq] at h
        subst h
        simp [List.takeWhile_cons, List.dropWhile_cons]
  | cons c a' ih =>
    intro ha
    have hc : c ≠ '/' := fun h => ha (h ▸ List.mem_cons_self c a')
    have ha' : '/' ∉ a' := fun h => ha (List.mem_cons_of_mem _ h)
    obtain ⟨ih1, ih2⟩ := ih ha'
    constructor
    · simp only [List.cons_append, List.takeWhile_cons]
      simp [hc, ih1]
    · simp only [List.cons_append, List.dropWhile_cons]
      simp [hc, ih2]

theorem intercalate_slash_inj : ∀ {p q : AbsPath}, NicePath p → NicePath q →
    List.intercalate ['/'] p = List.intercalate ['/'] q → p = q := by
  intro p
  induction p with
  | nil =>
    intro q hp hq h
    rcases q with _ | ⟨b, q'⟩
    · rfl
    · exfalso
      obtain ⟨r, hdec, _, _, _⟩ := intercalate_decomp b q'
      rw [hdec] at h
      obtain ⟨hb, _⟩ := hq b (List.mem_cons_self b q')
      have : ([] : List Char) = b ++ r := by simpa [intercalate_nil] using h
      exact hb (List.append_eq_nil.mp this.symm).1
  | cons a p' ih =>
    intro q hp hq h
    rcases q with _ | ⟨b, q'⟩
    · exfalso
      obtain ⟨r, hdec, _, _, _⟩ := intercalate_decomp a p'
      rw [hdec] at h
      obtain ⟨hA, _⟩ := hp a (List.mem_cons_self a p')
      have : a ++ r = ([] : List Char) := by simpa [intercalate_nil] using h
      exact hA (List.append_eq_nil.mp this).1
    · obtain ⟨r1, hd1, hh1, hz1, hc1⟩ := intercalate_decomp a p'
      obtain ⟨r2, hd2, hh2, hz2, hc2⟩ := intercalate_decomp b q'
      rw [hd1, hd2] at h
      obtain ⟨hAne, hAs⟩ := hp a (List.mem_cons_self a p')
      obtain ⟨hBne, hBs⟩ := hq b (List.mem_cons_self b q')
      obtain ⟨ht1, hw1⟩ := takeWhile_sep hh1 hAs
      obtain ⟨ht2, hw2⟩ := takeWhile_sep hh2 hBs
      have hab : a = b := by rw [← ht1, ← ht2, h]
      have hr : r1 = r2 := by rw [← hw1, ← hw2, h]
      subst hab
      by_cases hp' : p' = []
      · by_cases hq' : q' = []
        · rw [hp', hq']
        · rw [hz1 hp', hc2 hq'] at hr
          exact absurd hr.symm (by simp)
      · by_cases hq' : q' = []
        · rw [hc1 hp', hz2 hq'] at hr
          exact absurd hr (by simp)
        · rw [hc1 hp', hc2 hq'] at hr
          have : List.intercalate ['/'] p' = List.intercalate ['/'] q' := by
            injection hr
          have hp'' : NicePath p' := fun s hs => hp s (List.mem_cons_of_mem _ hs)
          have hq'' : NicePath q' := fun s hs => hq s (List.mem_cons_of_mem _ hs)
          rw [ih hp'' hq'' this]

theorem pathStr_inj {p q : AbsPath} (hp : NicePath p) (hq : NicePath q)
    (h : pathStr p = pathStr q) : p = q := by
  apply intercalate_slash_inj hp hq
  injection h

/-! ### `safe_join` on nice bases and plain relative paths -/

theorem safe_join_ok_iff {bt : AbsPath} {rel : List Char} {a : AbsPath} :
    safe_join bt rel = .ok a ↔
      ((pathStr bt).isPrefixOf (pathStr (resolveJoin bt rel)) = true ∧
        a = resolveJoin bt rel) := by
  rw [safe_join]
  split
  next hc =>
    constructor
    · intro he; injection he with he; exact ⟨hc, he.symm⟩
    · rintro ⟨_, rfl⟩; rfl
  next hc =>
    constructor
    · intro he; exact absurd he (by simp)
    · rintro ⟨h1, _⟩; exact absurd h1 hc

theorem resolveSegs_nice : ∀ {segs : List Seg} {st : AbsPath}, NicePath st →
    (∀ s ∈ segs, '/' ∉ s) → NicePath (resolveSegs st segs) := by
  intro segs
  induction segs with
  | nil => intro st h _; exact h
  | cons s rest ih =>
    intro st hst hs
    rw [resolveSegs]
    by_cases h1 : s = [] ∨ s = ".".data
    · rw [if_pos h1]
      exact ih hst fun x hx => hs x (List.mem_cons_of_mem _ hx)
    · rw [if_neg h1]
      by_cases h2 : s = "..".data
      · rw [if_pos h2]
        have : NicePath st.dropLast := fun x hx => hst x ((List.dropLast_prefix st).subset hx)
        exact ih this fun x hx => hs x (List.mem_cons_of_mem _ hx)
      · rw [if_neg h2]
        refine ih ?_ fun x hx => hs x (List.mem_cons_of_mem _ hx)
        intro x hx
        rcases List.mem_append.mp hx with h | h
        · exact hst x h
        · have : x = s := by simpa using h
          subst this
          exact ⟨fun he => h1 (Or.inl he), hs x (List.mem_cons_self _ _)⟩

theorem safe_join_nice {bt : AbsPath} {rel : List Char} {a : AbsPath}
    (h : safe_join bt rel = .ok a) (hbt : NicePath bt) : NicePath a := by
  obtain ⟨_, ha⟩ := safe_join_ok_iff.mp h
  subst ha
  rw [resolveJoin]
  by_cases hh : rel.head? = some '/'
  · rw [if_pos hh]
    exact resolveSegs_nice nicePath_nil (splitOnChar_not_mem '/' rel)
  · rw [if_neg hh]
    exact resolveSegs_nice hbt (splitOnChar_not_mem '/' rel)

theorem two_le_pathStr_len {p : AbsPath} (hp : NicePath p) (hne : p ≠ []) :
    2 ≤ (pathStr p).length := by
  rcases p with _ | ⟨a, p'⟩
  · exact absurd rfl hne
  · obtain ⟨r, hdec, _, _, _⟩ := intercalate_decomp a p'
    obtain ⟨hA, _⟩ := hp a (List.mem_cons_self a p')
    have : 1 ≤ a.length := List.length_pos.mpr hA
    simp only [pathStr, hdec, List.length_cons, List.length_append]
    omega

theorem safe_join_ok_ne_nil {bt : AbsPath} {rel : List Char} {a : AbsPath}
    (h : safe_join bt rel = .ok a) (hbt : NicePath bt) (hne : bt ≠ []) : a ≠ [] := by
  obtain ⟨hpre, ha⟩ := safe_join_ok_iff.mp h
  intro h0
  have hpre' : pathStr bt <+: pathStr (resolveJoin bt rel) :=
    List.isPrefixOf_iff_prefix.mp hpre
  rw [← ha, h0] at hpre'
  have h1 := hpre'.length_le
  have h2 := two_le_pathStr_len hbt hne
  have h3 : (pathStr ([] : AbsPath)).length = 1 := rfl
  rw [h3] at h1
  omega

/-! ### Plain relative paths: only real segments, no traversal -/

/-- A relative path whose `'/'`-split pieces are all real names (non-empty,
not `.`, not `..`). -/
def PlainRel (rel : List Char) : Prop :=
  ∀ s ∈ splitOnChar '/' rel, s ≠ [] ∧ s ≠ ".".data ∧ s ≠ "..".data

theorem resolveSegs_plain : ∀ {segs : List Seg} (st : AbsPath),
    (∀ s ∈ segs, s ≠ [] ∧ s ≠ ".".data ∧ s ≠ "..".data) →
    resolveSegs st segs = st ++ segs := by
  intro segs
  induction segs with
  | nil => intro st _; simp [resolveSegs]
  | cons s rest ih =>
    intro st hs
    obtain ⟨h1, h2, h3⟩ := hs s (List.mem_cons_self _ _)
    rw [resolveSegs, if_neg (by tauto), if_neg h3]
    rw [ih (st ++ [s]) fun x hx => hs x (List.mem_cons_of_mem _ hx)]
    simp

theorem plain_head_ne_slash {rel : List Char} (h : PlainRel rel) :
    rel.head? ≠ some '/' := by
  rcases rel with _ | ⟨c, xs⟩
  · simp
  · intro hc
    simp only [List.head?_cons, Option.some.injEq] at hc
    subst hc
    have hsp : splitOnChar '/' ('/' :: xs) = [] :: splitOnChar '/' xs := by
      rw [splitOnChar]; simp
    exact (h [] (hsp ▸ List.mem_cons_self _ _)).1 rfl

theorem intercalate_append_ne : ∀ {p : AbsPath} (q : AbsPath), p ≠ [] → q ≠ [] →
    List.intercalate ['/'] (p ++ q) =
      List.intercalate ['/'] p ++ '/' :: List.intercalate ['/'] q := by
  intro p
  induction p with
  | nil => intro q h _; exact absurd rfl h
  | cons a p' ih =>
    intro q _ hq
    by_cases hp' : p' = []
    · subst hp'
      rw [intercalate_single]
      simp only [List.cons_append, List.nil_append]
      exact intercalate_cons_ne a (by simpa using hq)
    · have h1 : p' ++ q ≠ [] := by simp [hp']
      rw [List.cons_append, intercalate_cons_ne a h1, intercalate_cons_ne a hp', ih q hp' hq]
      simp

theorem pathStr_prefix_append (p q : AbsPath) :
    (pathStr p).isPrefixOf (pathStr (p ++ q)) = true := by
  rw [List.isPrefixOf_iff_prefix]
  by_cases hq : q = []
  · subst hq; simp
  · by_cases hp : p = []
    · subst hp
      simp only [List.nil_append, pathStr]
      exact List.cons_prefix_cons.mpr ⟨rfl, List.nil_prefix⟩
    · simp only [pathStr, intercalate_append_ne q hp hq]
      refine List.cons_prefix_cons.mpr ⟨rfl, ?_⟩
      rw [show List.intercalate ['/'] p ++ '/' :: List.intercalate ['/'] q =
        List.intercalate ['/'] p ++ ('/' :: List.intercalate ['/'] q) from rfl]
      exact List.prefix_append _ _

/-- A plain relative path always joins cleanly: segments are appended below
the base and the confinement check passes. -/
theorem safe_join_plain {bt : AbsPath} {rel : List Char} (h : PlainRel rel) :
    safe_join bt rel = .ok (bt ++ splitOnChar '/' rel) := by
  have hres : resolveJoin bt rel = bt ++ splitOnChar '/' rel := by
    rw [resolveJoin, if_neg (plain_head_ne_slash h)]
    exact resolveSegs_plain bt h
  rw [safe_join_ok_iff, hres]
  exact ⟨pathStr_prefix_append bt _, rfl⟩

theorem getKey_eq_none {fields : List (List Char × JVal)} {k : List Char}
    (h : hasKey fields k = false) : getKey fields k = none := by
  have hfind : fields.find? (·.1 == k) = none := by
    rw [List.find?_eq_none]
    intro x hx hbeq
    have hany : fields.any (·.1 == k) = true := List.any_eq_true.mpr ⟨x, hx, hbeq⟩
    rw [hasKey] at h
    rw [hany] at h
    exact absurd h (by simp)
  rw [getKey, hfind]
  rfl

/-! ## Claim C9 -/

/-- C9: a decoded structured-data object that is a mapping containing the key
`"root"` — even without an `"entries"` key — commits the parser to the
flat-entry shape: it fails with the structural error requiring an `'entries'`
list instead of falling back to the nested-mapping shape. -/
theorem C9_root_key_commits_to_flat_shape (fields : List (List Char × JVal))
    (hroot : hasKey fields "root".data = true)
    (hent : hasKey fields "entries".data = false) :
    parse_yaml_or_json (.obj fields) = .error errFlatShape := by
  have hcond : (hasKey fields "entries".data || hasKey fields "root".data) = true := by
    rw [hent, hroot]; rfl
  have hg : getKey fields "entries".data = none := getKey_eq_none hent
  rw [parse_yaml_or_json, if_pos hcond, hg]

/-- Witness for C9 at the concrete mapping `{"root": null}`. -/
theorem C9_witness :
    hasKey [("root".data, JVal.null)] "root".data = true ∧
    hasKey [("root".data, JVal.null)] "entries".data = false ∧
    parse_yaml_or_json (.obj [("root".data, JVal.null)]) = .error errFlatShape :=
  ⟨rfl, rfl, C9_root_key_commits_to_flat_shape [("root".data, JVal.null)] rfl rfl⟩

/-! ## Claim C10 -/

/-- C10: in a live run with `overwrite = false`, a file entry whose confined
path already carries *any* filesystem object (directory as much as regular
file) is recorded under `skipped`, the filesystem is untouched for it, and no
error is raised. -/
theorem C10_file_entry_skips_any_existing_object
    (ct : List (List Char × Option (List Char))) (fs : FS) (a : AbsPath)
    (rel : List Char) (n : FSNode) (h : fs.lookup a = some n) :
    processEntry false ct fs a rel false = (fs, .skippedTag) :=
  processEntry_skip h

/-- Witness for C10 with a directory sitting at the file entry's path. -/
theorem C10_witness :
    FS.lookup [(["base".data, "d".data], FSNode.dir)] ["base".data, "d".data] =
      some FSNode.dir ∧
    processEntry false [] [(["base".data, "d".data], FSNode.dir)]
      ["base".data, "d".data] "d".data false =
      ([(["base".data, "d".data], FSNode.dir)], .skippedTag) :=
  ⟨rfl, C10_file_entry_skips_any_existing_object [] _ _ _ FSNode.dir rfl⟩

/-! ## Claim C6 -/

/-- C6: a dry run never mutates the filesystem, and when it returns a result
the result carries `dry_run = true`, the plan, and empty
`created`/`skipped`/`errors`.  This holds for the materializer core and for
both parsing front ends. -/
theorem C6_dry_run_never_mutates :
    (∀ selected paths contents base target_path ow fs,
      (scaffold_core selected paths contents base target_path ow true fs).fs = fs ∧
      ∀ r, (scaffold_core selected paths contents base target_path ow true fs).result = .ok r →
        r.dry_run = true ∧ r.created = [] ∧ r.skipped = [] ∧ r.errors = [] ∧
        ∃ bt, safe_join base (cleanTarget target_path) = .ok bt ∧
          r.plan = some (paths.map fun e =>
            (purePathJoinStr bt e.1, if e.2 then "dir".data else "file".data))) ∧
    (∀ prompt target_path ow base fs,
      (scaffold_project_tree prompt target_path ow true base fs).fs = fs) ∧
    (∀ selected data target_path ow base fs,
      (scaffold_project_structured selected data target_path ow true base fs).fs = fs) := by
  have hcore : ∀ selected (paths : List (List Char × Bool)) contents base target_path ow fs,
      (scaffold_core selected paths contents base target_path ow true fs).fs = fs ∧
      ∀ r, (scaffold_core selected paths contents base target_path ow true fs).result = .ok r →
        r.dry_run = true ∧ r.created = [] ∧ r.skipped = [] ∧ r.errors = [] ∧
        ∃ bt, safe_join base (cleanTarget target_path) = .ok bt ∧
          r.plan = some (paths.map fun e =>
            (purePathJoinStr bt e.1, if e.2 then "dir".data else "file".data)) := by
    intro selected paths contents base target_path ow fs
    rw [scaffold_core]
    rcases hs : safe_join base (cleanTarget target_path) with e | bt
    · exact ⟨rfl, fun r hr => absurd hr (by simp)⟩
    · refine ⟨rfl, fun r hr => ?_⟩
      simp only [if_pos rfl] at hr
      injection hr with hr
      subst hr
      exact ⟨rfl, rfl, rfl, rfl, bt, rfl, rfl⟩
  refine ⟨hcore, fun prompt target_path ow base fs => ?_, fun selected data target_path ow base fs => ?_⟩
  · rw [scaffold_project_tree]
    exact (hcore _ _ _ _ _ _ _).1
  · rw [scaffold_project_structured]
    rcases parse_yaml_or_json data with e | triples
    · rfl
    · exact (hcore _ _ _ _ _ _ _).1

/-- Witness for C6 on a concrete dry-run request. -/
theorem C6_witness :
    (scaffold_project_tree "app/\n├─ README.md".data "proj".data false true
      ["base".data] [(["base".data], FSNode.dir)]).fs = [(["base".data], FSNode.dir)] :=
  C6_dry_run_never_mutates.2.1 "app/\n├─ README.md".data "proj".data false
    ["base".data] [(["base".data], FSNode.dir)]

/-! ## Claim C3 (corrected) -/

/-- C3 counterexample: a dry run whose single entry `"../../x"` escapes the
root does *not* raise a confinement violation — the request succeeds — and the
plan records the textual, unresolved join `/base/proj/../../x` rather than a
confined absolute path. -/
theorem C3_counterexample :
    (scaffold_project_structured "json".data
      (.obj [("entries".data, .arr [.obj [("path".data, .str "../../x".data)]])])
      "proj".data false true ["base".data] [(["base".data], FSNode.dir)]).result =
    .ok { selected_mode := "json".data, base := "/base".data, target := "/base/proj".data,
          created := [], skipped := [], errors := [], dry_run := true,
          plan := some [("/base/proj/../../x".data, "file".data)] } := rfl

/-- C3 amended: in a dry run each plan record's path is the purely textual
`PurePath` join of the resolved target and the entry path (empty and `"."`
segments dropped, `".."` kept, with no confinement check), so an entry that
escapes the root does not cause a confinement violation in a dry run. -/
theorem C3_dry_run_plan_is_textual_join
    (selected : List Char) (paths : List (List Char × Bool))
    (contents : List (List Char × Option (List Char))) (base : AbsPath)
    (target_path : List Char) (ow : Bool) (fs : FS) (bt : AbsPath)
    (hbt : safe_join base (cleanTarget target_path) = .ok bt) :
    (scaffold_core selected paths contents base target_path ow true fs).result =
      .ok { selected_mode := selected, base := pathStr base, target := pathStr bt,
            created := [], skipped := [], errors := [], dry_run := true,
            plan := some (paths.map fun e =>
              (purePathJoinStr bt e.1, if e.2 then "dir".data else "file".data)) } ∧
    (scaffold_core selected paths contents base target_path ow true fs).fs = fs := by
  rw [scaffold_core, hbt]
  exact ⟨rfl, rfl⟩

/-- Witness for the amended C3 on the escaping-entry dry run. -/
theorem C3_witness :
    safe_join ["base".data] (cleanTarget "proj".data) = .ok ["base".data, "proj".data] ∧
    (scaffold_core "json".data [("../../x".data, false)] [] ["base".data] "proj".data
      false true [(["base".data], FSNode.dir)]).result =
    .ok { selected_mode := "json".data, base := "/base".data, target := "/base/proj".data,
          created := [], skipped := [], errors := [], dry_run := true,
          plan := some [("/base/proj/../../x".data, "file".data)] } :=
  ⟨rfl, (C3_dry_run_plan_is_textual_join "json".data [("../../x".data, false)] []
    ["base".data] "proj".data false [(["base".data], FSNode.dir)]
    ["base".data, "proj".data] rfl).1⟩

/-! ## Additional run lemmas for idempotence -/

theorem runEntries_all_ok {ow : Bool} {ct : List (List Char × Option (List Char))}
    {bt : AbsPath} :
    ∀ {l : List (List Char × Bool)} {fs : FS}, (runEntries ow ct bt fs l).2.2 = none →
      ∀ x ∈ l, ∃ a, safe_join bt x.1 = .ok a := by
  intro l
  induction l with
  | nil => intro fs _ x hx; exact absurd hx (by simp)
  | cons y rest ih =>
    intro fs hab x hx
    rcases y with ⟨rel, isd⟩
    rcases hs : safe_join bt rel with e | a
    · rw [runEntries_cons_err hs] at hab
      exact absurd hab (by simp)
    · rw [runEntries_cons_ok hs] at hab
      rcases List.mem_cons.mp hx with h | h
      · exact ⟨a, h ▸ hs⟩
      · exact ih hab x h

theorem processEntry_created_dir {ct : List (List Char × Option (List Char))} {fs : FS}
    {a : AbsPath} {rel : List Char} (ha : a ≠ [])
    (h : (processEntry false ct fs a rel true).2 = .createdTag) :
    ((processEntry false ct fs a rel true).1).lookup a = some .dir := by
  rcases hmk : mkdirParents fs a with e | fs'
  · rw [processEntry, if_pos rfl, hmk] at h
    simp at h
  · have hres : (processEntry false ct fs a rel true).1 = fs' := by
      rw [processEntry, if_pos rfl, hmk]
    rw [hres]
    exact mkdirRec_ok_lookup hmk ha

/-- A dir entry traced `created` leaves a directory on the final
filesystem. -/
theorem runEntries_created_dir {ct : List (List Char × Option (List Char))} {bt : AbsPath}
    {a : AbsPath} (ha : a ≠ []) :
    ∀ {l : List (List Char × Bool)} {fs : FS} {rel : List Char},
      (rel, true, a, EntryTag.createdTag) ∈ (runEntries false ct bt fs l).2.1 →
      ((runEntries false ct bt fs l).1).lookup a = some .dir := by
  intro l
  induction l with
  | nil => intro fs rel h; rw [runEntries_nil] at h; exact absurd h (by simp)
  | cons y rest ih =>
    intro fs rel h
    rcases y with ⟨r, d⟩
    rcases hs : safe_join bt r with e | b
    · rw [runEntries_cons_err hs] at h; exact absurd h (by simp)
    · rw [runEntries_cons_ok hs] at h ⊢
      rcases List.mem_cons.mp h with h' | h'
      · have hr : r = rel := (congrArg (·.1) h').symm
        have hd : d = true := (congrArg (·.2.1) h').symm
        have hb : b = a := (congrArg (·.2.2.1) h').symm
        have ht : (processEntry false ct fs b r d).2 = .createdTag := by
          have := (congrArg (·.2.2.2) h').symm
          simpa using this
        subst hr; subst hd; subst hb
        exact runEntries_persist (processEntry_created_dir ha ht)
      · exact ih h'

/-! ## Claim C7 (corrected) -/

/-- C7 amended: running the same live request twice with `overwrite = false`
(from the state the first run left behind): the second run also completes;
every *file* entry the first run `created` is `skipped` and not `created` by
the second run and its on-disk content is unchanged; and every *directory*
entry the first run `created` is `created` again by the second run.  (A
directory entry that already failed in the first run — e.g. because an
ancestor exists as a file — fails again instead of being created, which is
what the original claim missed.) -/
theorem C7_second_run_skips_created_files
    (ct : List (List Char × Option (List Char))) (bt : AbsPath) (fs0 : FS)
    (ps : List (List Char × Bool)) (fs1 : FS)
    (tr1 : List (List Char × Bool × AbsPath × EntryTag)) (fs2 : FS)
    (tr2 : List (List Char × Bool × AbsPath × EntryTag)) (ab2 : Option (List Char))
    (hbt : NicePath bt) (hbtne : bt ≠ [])
    (h1 : runEntries false ct bt fs0 ps = (fs1, tr1, none))
    (h2 : runEntries false ct bt fs1 ps = (fs2, tr2, ab2)) :
    ab2 = none ∧
    (∀ rel a, (rel, false, a, EntryTag.createdTag) ∈ tr1 →
      pathStr a ∈ skippedOf tr2 ∧ pathStr a ∉ createdOf tr2 ∧
      fs2.lookup a = fs1.lookup a) ∧
    (∀ rel a, (rel, true, a, EntryTag.createdTag) ∈ tr1 →
      (rel, true, a, EntryTag.createdTag) ∈ tr2) := by
  have hall : ∀ x ∈ ps, ∃ b, safe_join bt x.1 = .ok b :=
    runEntries_all_ok (by rw [h1])
  have hab2 : ab2 = none := by
    have := @runEntries_no_abort false ct bt _ fs1 hall
    rw [h2] at this
    exact this
  refine ⟨hab2, ?_, ?_⟩
  · intro rel a hmem
    have hshape := @runEntries_trace_shape false ct bt ps fs0
      (rel, false, a, EntryTag.createdTag) (by rw [h1]; exact hmem)
    obtain ⟨hps, hsj⟩ := hshape
    have ha : a ≠ [] := safe_join_ok_ne_nil hsj hbt hbtne
    have hfile : fs1.lookup a = some (.file (effContent ct rel)) := by
      have := @runEntries_created_file ct bt ps fs0 rel a (by rw [h1]; exact hmem)
      rw [h1] at this
      exact this
    have hskip : (rel, false, a, EntryTag.skippedTag) ∈ tr2 := by
      have := @runEntries_exists_skipped ct bt rel a _ hsj ps fs1 hall hps hfile
      rw [h2] at this
      exact this
    refine ⟨mem_skippedOf.mpr ⟨rel, false, a, hskip, rfl⟩, ?_, ?_⟩
    · intro hcre
      obtain ⟨rel', isd', a', hmem', hs'⟩ := mem_createdOf.mp hcre
      obtain ⟨hps', hsj'⟩ := @runEntries_trace_shape false ct bt ps fs1
        (rel', isd', a', EntryTag.createdTag) (by rw [h2]; exact hmem')
      have hnice' : NicePath a' := safe_join_nice hsj' hbt
      have hnice : NicePath a := safe_join_nice hsj hbt
      have haa : a' = a := pathStr_inj hnice' hnice hs'.symm
      have := @runEntries_file_blocks_created ct bt a _ ha ps fs1 hfile
        (rel', isd', a', EntryTag.createdTag) (by rw [h2]; exact hmem') haa
      exact this rfl
    · have := @runEntries_persist ct bt a _ ps fs1 hfile
      rw [h2] at this
      rw [this, hfile]
  · intro rel a hmem
    have hshape := @runEntries_trace_shape false ct bt ps fs0
      (rel, true, a, EntryTag.createdTag) (by rw [h1]; exact hmem)
    obtain ⟨hps, hsj⟩ := hshape
    have ha : a ≠ [] := safe_join_ok_ne_nil hsj hbt hbtne
    have hdir : fs1.lookup a = some .dir := by
      have := @runEntries_created_dir ct bt a ha ps fs0 rel (by rw [h1]; exact hmem)
      rw [h1] at this
      exact this
    have := @runEntries_dir_created ct bt rel a hsj ps fs1 hall hps hdir
    rw [h2] at this
    exact this

/-- C7 counterexample: a live request consisting of one directory entry
`f/d`, run twice against a target where `f` is an existing *file*: both runs
report the entry under `errors` and create nothing, so "every directory entry
appears in `created` on both runs" fails as stated. -/
theorem C7_counterexample :
    parse_yaml_or_json (.obj [("entries".data,
        .arr [.obj [("path".data, .str "f/d".data), ("type".data, .str "dir".data)]])]) =
      .ok [("f/d".data, true, none)] ∧
    (scaffold_project_structured "json".data
      (.obj [("entries".data,
        .arr [.obj [("path".data, .str "f/d".data), ("type".data, .str "dir".data)]])])
      "proj".data false false ["base".data]
      [(["base".data], FSNode.dir), (["base".data, "proj".data], FSNode.dir),
       (["base".data, "proj".data, "f".data], FSNode.file "x".data)]).result.map
        (fun r => (r.created, r.skipped, r.errors)) =
      .ok ([], [], [("/base/proj/f/d".data, "FileExistsError".data)]) ∧
    (scaffold_project_structured "json".data
      (.obj [("entries".data,
        .arr [.obj [("path".data, .str "f/d".data), ("type".data, .str "dir".data)]])])
      "proj".data false false ["base".data]
      (scaffold_project_structured "json".data
        (.obj [("entries".data,
          .arr [.obj [("path".data, .str "f/d".data), ("type".data, .str "dir".data)]])])
        "proj".data false false ["base".data]
        [(["base".data], FSNode.dir), (["base".data, "proj".data], FSNode.dir),
         (["base".data, "proj".data, "f".data], FSNode.file "x".data)]).fs).result.map
        (fun r => (r.created, r.skipped, r.errors)) =
      .ok ([], [], [("/base/proj/f/d".data, "FileExistsError".data)]) :=
  ⟨rfl, rfl, rfl⟩

/-- Witness for the amended C7 on a two-entry request (a directory and a
file) run twice against a fresh target. -/
theorem C7_witness :
    "/base/proj/f".data ∈ skippedOf
      [("d".data, true, ["base".data, "proj".data, "d".data], EntryTag.createdTag),
       ("f".data, false, ["base".data, "proj".data, "f".data], EntryTag.skippedTag)] ∧
    "/base/proj/f".data ∉ createdOf
      [("d".data, true, ["base".data, "proj".data, "d".data], EntryTag.createdTag),
       ("f".data, false, ["base".data, "proj".data, "f".data], EntryTag.skippedTag)] ∧
    ("d".data, true, ["base".data, "proj".data, "d".data], EntryTag.createdTag) ∈
      [("d".data, true, ["base".data, "proj".data, "d".data], EntryTag.createdTag),
       ("f".data, false, ["base".data, "proj".data, "f".data], EntryTag.skippedTag)] := by
  have h := C7_second_run_skips_created_files []
    ["base".data, "proj".data] [(["base".data], FSNode.dir)]
    [("d".data, true), ("f".data, false)]
    [(["base".data, "proj".data, "f".data], FSNode.file []),
     (["base".data, "proj".data, "d".data], FSNode.dir),
     (["base".data, "proj".data], FSNode.dir), (["base".data], FSNode.dir)]
    [("d".data, true, ["base".data, "proj".data, "d".data], EntryTag.createdTag),
     ("f".data, false, ["base".data, "proj".data, "f".data], EntryTag.createdTag)]
    [(["base".data, "proj".data, "f".data], FSNode.file []),
     (["base".data, "proj".data, "d".data], FSNode.dir),
     (["base".data, "proj".data], FSNode.dir), (["base".data], FSNode.dir)]
    [("d".data, true, ["base".data, "proj".data, "d".data], EntryTag.createdTag),
     ("f".data, false, ["base".data, "proj".data, "f".data], EntryTag.skippedTag)]
    none (by unfold NicePath; decide) (by decide) rfl rfl
  obtain ⟨-, hfile, hdir⟩ := h
  have hf := hfile "f".data ["base".data, "proj".data, "f".data] (by decide)
  exact ⟨hf.1, hf.2.1, hdir "d".data ["base".data, "proj".data, "d".data] (by decide)⟩

/-! ## Claim C4 (corrected) -/

/-- When the entries of a run resolve to pairwise distinct absolute paths, the
trace's absolute paths are pairwise distinct. -/
theorem runEntries_trace_abs_pairwise {ow : Bool} {ct : List (List Char × Option (List Char))}
    {bt : AbsPath} :
    ∀ {ps : List (List Char × Bool)} {fs : FS},
      ps.Pairwise (fun e1 e2 => ∀ a1 a2, safe_join bt e1.1 = .ok a1 →
        safe_join bt e2.1 = .ok a2 → a1 ≠ a2) →
      ((runEntries ow ct bt fs ps).2.1).Pairwise (fun x y => x.2.2.1 ≠ y.2.2.1) := by
  intro ps
  induction ps with
  | nil => intro fs _; rw [runEntries_nil]; exact List.Pairwise.nil
  | cons e rest ih =>
    intro fs hdist
    rcases e with ⟨rel, isd⟩
    rcases hs : safe_join bt rel with er | a
    · rw [runEntries_cons_err hs]; exact List.Pairwise.nil
    · rw [runEntries_cons_ok hs]
      rw [List.pairwise_cons]
      constructor
      · intro y hy
        obtain ⟨hyps, hysj⟩ := @runEntries_trace_shape ow ct bt _ _ y hy
        have hrel := (List.pairwise_cons.mp hdist).1 (y.1, y.2.1) hyps
        exact hrel a y.2.2.1 hs hysj
      · exact ih (List.pairwise_cons.mp hdist).2

/-- C4 amended: in a live run whose entries resolve to pairwise *distinct*
absolute paths, `created`, `skipped` and `errors` are pairwise disjoint per
path.  (With duplicate resolved paths the disjointness fails, e.g. a file path
listed twice lands in both `created` and `skipped`.) -/
theorem C4_disjoint_for_distinct_paths {ow : Bool}
    (ct : List (List Char × Option (List Char))) (bt : AbsPath) (fs : FS)
    (ps : List (List Char × Bool)) (hbt : NicePath bt)
    (hdist : ps.Pairwise (fun e1 e2 => ∀ a1 a2, safe_join bt e1.1 = .ok a1 →
      safe_join bt e2.1 = .ok a2 → a1 ≠ a2)) :
    (∀ s, s ∈ createdOf (runEntries ow ct bt fs ps).2.1 →
      s ∉ skippedOf (runEntries ow ct bt fs ps).2.1) ∧
    (∀ s m, s ∈ createdOf (runEntries ow ct bt fs ps).2.1 →
      (s, m) ∉ errorsOf (runEntries ow ct bt fs ps).2.1) ∧
    (∀ s m, s ∈ skippedOf (runEntries ow ct bt fs ps).2.1 →
      (s, m) ∉ errorsOf (runEntries ow ct bt fs ps).2.1) := by
  have hpw := @runEntries_trace_abs_pairwise ow ct bt ps fs hdist
  have hsym : Symmetric (fun x y : List Char × Bool × AbsPath × EntryTag =>
      x.2.2.1 ≠ y.2.2.1) := fun x y h he => h he.symm
  have key : ∀ x ∈ (runEntries ow ct bt fs ps).2.1, ∀ y ∈ (runEntries ow ct bt fs ps).2.1,
      x.2.2.2 ≠ y.2.2.2 → pathStr x.2.2.1 ≠ pathStr y.2.2.1 := by
    intro x hx y hy htag heq
    have hxy : x ≠ y := fun he => htag (congrArg (·.2.2.2) he)
    have hnx : NicePath x.2.2.1 :=
      safe_join_nice (@runEntries_trace_shape ow ct bt _ _ x hx).2 hbt
    have hny : NicePath y.2.2.1 :=
      safe_join_nice (@runEntries_trace_shape ow ct bt _ _ y hy).2 hbt
    exact hpw.forall hsym hx hy hxy (pathStr_inj hnx hny heq)
  refine ⟨?_, ?_, ?_⟩
  · intro s hc hk
    obtain ⟨rel, isd, a, hmem, rfl⟩ := mem_createdOf.mp hc
    obtain ⟨rel', isd', a', hmem', heq⟩ := mem_skippedOf.mp hk
    exact key _ hmem _ hmem' (by simp) heq
  · intro s m hc hk
    obtain ⟨rel, isd, a, hmem, rfl⟩ := mem_createdOf.mp hc
    obtain ⟨rel', isd', a', hmem', heq⟩ := mem_errorsOf.mp hk
    exact key _ hmem _ hmem' (by simp) heq
  · intro s m hc hk
    obtain ⟨rel, isd, a, hmem, rfl⟩ := mem_skippedOf.mp hc
    obtain ⟨rel', isd', a', hmem', heq⟩ := mem_errorsOf.mp hk
    exact key _ hmem _ hmem' (by simp) heq

/-- C4 counterexample: the same file path listed twice in one live request
appears in `created` (first occurrence) *and* in `skipped` (second
occurrence), so the three lists are not disjoint per path as claimed. -/
theorem C4_counterexample :
    (scaffold_project_structured "json".data
      (.obj [("entries".data, .arr [.obj [("path".data, .str "a".data)],
                                    .obj [("path".data, .str "a".data)]])])
      "proj".data false false ["base".data] [(["base".data], FSNode.dir)]).result.map
        (fun r => (r.created, r.skipped, r.errors)) =
      .ok (["/base/proj/a".data], ["/base/proj/a".data], []) := rfl

/-- Witness for the amended C4 on a two-entry request with distinct paths. -/
theorem C4_witness :
    "/base/proj/a".data ∈ createdOf (runEntries false [] ["base".data, "proj".data]
      [(["base".data], FSNode.dir)] [("a".data, false), ("b".data, true)]).2.1 ∧
    "/base/proj/a".data ∉ skippedOf (runEntries false [] ["base".data, "proj".data]
      [(["base".data], FSNode.dir)] [("a".data, false), ("b".data, true)]).2.1 := by
  have h := @C4_disjoint_for_distinct_paths false [] ["base".data, "proj".data]
    [(["base".data], FSNode.dir)] [("a".data, false), ("b".data, true)]
    (by unfold NicePath; decide)
    (by
      refine List.Pairwise.cons ?_ (List.Pairwise.cons (by simp) List.Pairwise.nil)
      intro z hz a1 a2 h1 h2
      have hz' : z = ("b".data, true) := by simpa using hz
      subst hz'
      rw [show safe_join ["base".data, "proj".data] "a".data =
        .ok ["base".data, "proj".data, "a".data] from rfl] at h1
      rw [show safe_join ["base".data, "proj".data] "b".data =
        .ok ["base".data, "proj".data, "b".data] from rfl] at h2
      injection h1 with h1
      injection h2 with h2
      subst h1; subst h2
      decide)
  exact ⟨by decide, h.1 "/base/proj/a".data (by decide)⟩

/-! ## Entry characterization: which entries end up in `created`

For tree-consistent specs (each path has a single type, no file path is a
proper prefix of another path, all paths are plain) the fate of every entry in
a live run is a function of the initial filesystem alone, independently of
entry order.  This is the engine behind C5 and C8. -/

/-- The `'/'`-split segments of an entry path. -/
def segsOf (rel : List Char) : List Seg := splitOnChar '/' rel

theorem segsOf_inj {r1 r2 : List Char} (h : segsOf r1 = segsOf r2) : r1 = r2 := by
  have := congrArg (List.intercalate ['/']) h
  rwa [segsOf, segsOf, intercalate_splitOnChar, intercalate_splitOnChar] at this

theorem proper_of_prefix_dropLast {α : Type _} {q p : List α} (hp : p ≠ [])
    (h : q <+: p.dropLast) : q <+: p ∧ q ≠ p := by
  refine ⟨prefix_trans_dropLast h, ?_⟩
  intro he
  subst he
  exact not_prefix_dropLast_self hp h

/-- All strict ancestors of a path are free or directories in `fs0`. -/
def cleanAncestors (fs0 : FS) (p : AbsPath) : Prop :=
  ∀ q, q <+: p → q ≠ p → fs0.lookup q = none ∨ fs0.lookup q = some .dir

/-- The initial-state condition under which an entry gets created: clean
ancestors, and the path itself free (file entry) or at least not a file
(directory entry). -/
def entryOK (fs0 : FS) (bt : AbsPath) (rel : List Char) (isd : Bool) : Prop :=
  cleanAncestors fs0 (bt ++ segsOf rel) ∧
  (if isd then ∀ c, fs0.lookup (bt ++ segsOf rel) ≠ some (.file c)
   else fs0.lookup (bt ++ segsOf rel) = none)

/-- Well-formedness of an entry list: plain paths, one type per path, and no
file path strictly below another path. -/
def GoodEntries (psAll : List (List Char × Bool)) : Prop :=
  (∀ e ∈ psAll, PlainRel e.1) ∧
  (∀ e1 ∈ psAll, ∀ e2 ∈ psAll, e1.1 = e2.1 → e1.2 = e2.2) ∧
  (∀ e1 ∈ psAll, e1.2 = false → ∀ e2 ∈ psAll,
    ¬(segsOf e1.1 <+: segsOf e2.1 ∧ e1.1 ≠ e2.1))

/-- Run invariant: the current filesystem is consistent, extends the initial
one, and every node it has gained is a directory lying on the way to some
entry's path, or an entry file at its own path. -/
structure RunInv (fs0 : FS) (bt : AbsPath) (psAll : List (List Char × Bool)) (fs : FS) :
    Prop where
  consistent : ConsistentFS fs
  persist : ∀ q n, fs0.lookup q = some n → fs.lookup q = some n
  provenance : ∀ q n, fs.lookup q = some n → fs0.lookup q = some n ∨
    (fs0.lookup q = none ∧
      ((n = .dir ∧ ∃ e ∈ psAll, (e.2 = true ∧ q <+: bt ++ segsOf e.1) ∨
          (e.2 = false ∧ q <+: (bt ++ segsOf e.1).dropLast)) ∨
       (∃ c rel, n = .file c ∧ (rel, false) ∈ psAll ∧ q = bt ++ segsOf rel)))

theorem runInv_init {fs0 : FS} {bt : AbsPath} {psAll : List (List Char × Bool)}
    (hc : ConsistentFS fs0) : RunInv fs0 bt psAll fs0 :=
  ⟨hc, fun _ _ h => h, fun _ _ h => Or.inl h⟩

theorem runInv_persist_none {fs0 bt psAll fs} (hinv : RunInv fs0 bt psAll fs)
    {q : AbsPath} (h : fs.lookup q = none) : fs0.lookup q = none := by
  rcases hl : fs0.lookup q with _ | n
  · rfl
  · rw [hinv.persist q n hl] at h; exact absurd h (by simp)

/-- Transfer: `fs0`-clean ancestors stay none-or-dir in any invariant state. -/
theorem cleanAncestors_transfer {fs0 bt psAll fs} (hinv : RunInv fs0 bt psAll fs)
    (hgood : GoodEntries psAll) {rel : List Char} {isd : Bool}
    (hmem : (rel, isd) ∈ psAll) (hclean : cleanAncestors fs0 (bt ++ segsOf rel)) :
    ∀ q, q <+: bt ++ segsOf rel → q ≠ bt ++ segsOf rel →
      fs.lookup q = none ∨ fs.lookup q = some .dir := by
  intro q hq hqne
  rcases hl : fs.lookup q with _ | n
  · exact Or.inl rfl
  · rcases hinv.provenance q n hl with h0 | ⟨h0, hrest⟩
    · rcases hclean q hq hqne with h | h
      · rw [h0] at h; exact absurd h (by simp)
      · rw [h0] at h
        injection h with h
        exact Or.inr (by rw [h])
    · rcases hrest with ⟨hd, _⟩ | ⟨c, r', hf, hr'mem, hr'q⟩
      · exact Or.inr (by rw [hd])
      · exfalso
        -- a file created by the run would be a file entry's path strictly
        -- below our entry's path, which `GoodEntries` forbids
        subst hr'q
        have hseg : segsOf r' <+: segsOf rel := (List.prefix_append_right_inj bt).mp hq
        have hne : r' ≠ rel := fun he => hqne (by rw [he])
        exact hgood.2.2 (r', false) hr'mem rfl (rel, isd) hmem ⟨hseg, hne⟩

/-- In an invariant state a *file* entry's path can never be a directory
(under `GoodEntries`, when `fs0` does not have it as a directory because it is
absent there). -/
theorem file_entry_not_dir {fs0 bt psAll fs} (hinv : RunInv fs0 bt psAll fs)
    (hgood : GoodEntries psAll) {rel : List Char}
    (hmem : (rel, false) ∈ psAll) (h0 : fs0.lookup (bt ++ segsOf rel) = none) :
    fs.lookup (bt ++ segsOf rel) ≠ some .dir := by
  intro hl
  rcases hinv.provenance _ _ hl with hc | ⟨_, hrest⟩
  · rw [h0] at hc; exact absurd hc (by simp)
  · rcases hrest with ⟨_, e, hemem, hcase⟩ | ⟨c, r', hf, _, _⟩
    · rcases hcase with ⟨het, hep⟩ | ⟨hef, hep⟩
      · have hseg : segsOf rel <+: segsOf e.1 := (List.prefix_append_right_inj bt).mp hep
        by_cases he : rel = e.1
        · have := hgood.2.1 (rel, false) hmem e hemem he
          rw [het] at this
          exact absurd this (by simp)
        · exact hgood.2.2 (rel, false) hmem rfl e hemem ⟨hseg, he⟩
      · have hbt : bt ++ segsOf e.1 ≠ [] := by
          simp only [ne_eq, List.append_eq_nil]
          intro ⟨_, hs⟩
          exact absurd hs (splitOnChar_ne_nil '/' e.1)
        obtain ⟨hpre, hne⟩ := proper_of_prefix_dropLast hbt hep
        have hseg : segsOf rel <+: segsOf e.1 := (List.prefix_append_right_inj bt).mp hpre
        by_cases he : rel = e.1
        · exact hne (by rw [he])
        · exact hgood.2.2 (rel, false) hmem rfl e hemem ⟨hseg, he⟩
    · exact absurd hf (by simp)

theorem appendSegs_ne_nil {bt : AbsPath} (hbtne : bt ≠ []) (rel : List Char) :
    bt ++ segsOf rel ≠ [] := by
  simp only [ne_eq, List.append_eq_nil]
  intro ⟨h, _⟩
  exact hbtne h

/-- A `created` tag at an entry's canonical path certifies that the *initial*
state already satisfied `entryOK` for it. -/
theorem processEntry_created_entryOK {fs0 : FS} {bt : AbsPath}
    {psAll : List (List Char × Bool)} {fs : FS}
    {ct : List (List Char × Option (List Char))} {rel : List Char} {isd : Bool}
    (hinv : RunInv fs0 bt psAll fs) (hbtne : bt ≠ [])
    (h : (processEntry false ct fs (bt ++ segsOf rel) rel isd).2 = .createdTag) :
    entryOK fs0 bt rel isd := by
  have ha : bt ++ segsOf rel ≠ [] := appendSegs_ne_nil hbtne rel
  cases isd with
  | true =>
    rcases hmk : mkdirParents fs (bt ++ segsOf rel) with e | fs'
    · rw [processEntry, if_pos rfl, hmk] at h
      simp at h
    · constructor
      · intro q hq hqne
        rcases mkdirRec_clean_of_ok hinv.consistent hmk q hq with h' | h'
        · exact Or.inl (runInv_persist_none hinv h')
        · rcases hl0 : fs0.lookup q with _ | n
          · exact Or.inl rfl
          · have := hinv.persist q n hl0
            rw [this] at h'
            injection h' with h'
            exact Or.inr (by rw [h'])
      · simp only [if_pos]
        intro c hc
        have := hinv.persist _ _ hc
        rw [mkdirParents_file this ha] at hmk
        exact absurd hmk (by simp)
  | false =>
    rcases hla : fs.lookup (bt ++ segsOf rel) with _ | n
    · rcases hmk : mkdirParents fs (bt ++ segsOf rel).dropLast with e | fs'
      · rw [processEntry_false_eq hla, hmk] at h
        simp at h
      · constructor
        · intro q hq hqne
          have hq' : q <+: (bt ++ segsOf rel).dropLast := prefix_dropLast_of_proper hq hqne
          rcases mkdirRec_clean_of_ok hinv.consistent hmk q hq' with h' | h'
          · exact Or.inl (runInv_persist_none hinv h')
          · rcases hl0 : fs0.lookup q with _ | n
            · exact Or.inl rfl
            · have := hinv.persist q n hl0
              rw [this] at h'
              injection h' with h'
              exact Or.inr (by rw [h'])
        · exact runInv_persist_none hinv hla
    · rw [processEntry_skip hla] at h
      simp at h

/-- The invariant survives processing any entry of the list. -/
theorem runInv_step {fs0 : FS} {bt : AbsPath} {psAll : List (List Char × Bool)} {fs : FS}
    {ct : List (List Char × Option (List Char))} {rel : List Char} {isd : Bool}
    (hinv : RunInv fs0 bt psAll fs) (hmem : (rel, isd) ∈ psAll) :
    RunInv fs0 bt psAll (processEntry false ct fs (bt ++ segsOf rel) rel isd).1 := by
  refine ⟨processEntry_consistent hinv.consistent, ?_, ?_⟩
  · intro q n h
    exact processEntry_persist (hinv.persist q n h)
  · intro q n h
    rcases @processEntry_effects ct fs (bt ++ segsOf rel) rel isd q
      with heq | ⟨h0, hne, hcase⟩
    · rw [heq] at h
      exact hinv.provenance q n h
    · have h00 : fs0.lookup q = none := runInv_persist_none hinv h0
      refine Or.inr ⟨h00, ?_⟩
      rcases hcase with ⟨hdir, hp⟩ | ⟨hfile, hqa, hisd⟩
      · left
        rw [h] at hdir
        injection hdir with hdir
        exact ⟨hdir, (rel, isd), hmem, by simpa using hp⟩
      · right
        rw [h] at hfile
        injection hfile with hfile
        exact ⟨effContent ct rel, rel, hfile, by rw [← hisd]; exact hmem, hqa⟩

theorem processEntry_dir_create {ct : List (List Char × Option (List Char))} {fs : FS}
    {a : AbsPath} {rel : List Char} (hl : fs.lookup a = none)
    (hclean : ∀ q, q <+: a → fs.lookup q = none ∨ fs.lookup q = some .dir) :
    ∃ fs', mkdirParents fs a = .ok fs' ∧
      processEntry false ct fs a rel true = (fs', .createdTag) := by
  obtain ⟨fs', hmk⟩ := mkdirRec_ok_of_clean (Nat.le_refl _) hclean
  have hmk' : mkdirParents fs a = .ok fs' := hmk
  exact ⟨fs', hmk', by simp [processEntry, hmk']⟩

/-- A dir entry with `entryOK` is `created` from any invariant state. -/
theorem step_dir_ok_created {fs0 : FS} {bt : AbsPath} {psAll : List (List Char × Bool)}
    {fs : FS} {ct : List (List Char × Option (List Char))} {rel : List Char}
    (hinv : RunInv fs0 bt psAll fs) (hgood : GoodEntries psAll)
    (hmem : (rel, true) ∈ psAll) (hok : entryOK fs0 bt rel true) :
    (processEntry false ct fs (bt ++ segsOf rel) rel true).2 = .createdTag := by
  rcases hla : fs.lookup (bt ++ segsOf rel) with _ | n
  · have hclean : ∀ q, q <+: bt ++ segsOf rel →
        fs.lookup q = none ∨ fs.lookup q = some .dir := by
      intro q hq
      by_cases hqa : q = bt ++ segsOf rel
      · exact Or.inl (hqa ▸ hla)
      · exact cleanAncestors_transfer hinv hgood hmem hok.1 q hq hqa
    obtain ⟨fs', _, hpe⟩ := processEntry_dir_create hla hclean
    rw [hpe]
  · cases n with
    | dir => rw [processEntry_dir_on_dir hla]
    | file c =>
      exfalso
      rcases hinv.provenance _ _ hla with h0 | ⟨h0, hrest⟩
      · exact hok.2 c h0
      · rcases hrest with ⟨hd, _⟩ | ⟨c', r', _, hr'mem, hr'q⟩
        · exact absurd hd (by simp)
        · have hseg : segsOf rel = segsOf r' := by
            have := List.append_cancel_left hr'q.symm
            exact this.symm
          have : rel = r' := segsOf_inj hseg
          subst this
          have := hgood.2.1 (rel, true) hmem (rel, false) hr'mem rfl
          exact absurd this (by simp)

/-- A file entry with `entryOK` whose path is still free is `created` (and its
content written) from any invariant state. -/
theorem step_file_ok_created {fs0 : FS} {bt : AbsPath} {psAll : List (List Char × Bool)}
    {fs : FS} {ct : List (List Char × Option (List Char))} {rel : List Char}
    (hinv : RunInv fs0 bt psAll fs) (hgood : GoodEntries psAll) (hbtne : bt ≠ [])
    (hmem : (rel, false) ∈ psAll) (hok : entryOK fs0 bt rel false)
    (hla : fs.lookup (bt ++ segsOf rel) = none) :
    (processEntry false ct fs (bt ++ segsOf rel) rel false).2 = .createdTag ∧
    ((processEntry false ct fs (bt ++ segsOf rel) rel false).1).lookup (bt ++ segsOf rel) =
      some (.file (effContent ct rel)) := by
  have ha : bt ++ segsOf rel ≠ [] := appendSegs_ne_nil hbtne rel
  have hcleanD : ∀ q, q <+: (bt ++ segsOf rel).dropLast →
      fs.lookup q = none ∨ fs.lookup q = some .dir := by
    intro q hq
    obtain ⟨hq', hqne⟩ := proper_of_prefix_dropLast ha hq
    exact cleanAncestors_transfer hinv hgood hmem hok.1 q hq' hqne
  obtain ⟨fs', hmk, hpe⟩ := processEntry_file_create hla ha hcleanD
  rw [hpe]
  exact ⟨rfl, by rw [FS.lookup_insert, if_pos rfl]⟩

/-- In an invariant state, a file entry's path holds either nothing or a
regular file — never a directory (given `entryOK`). -/
theorem step_file_lookup_cases {fs0 : FS} {bt : AbsPath} {psAll : List (List Char × Bool)}
    {fs : FS} {rel : List Char}
    (hinv : RunInv fs0 bt psAll fs) (hgood : GoodEntries psAll)
    (hmem : (rel, false) ∈ psAll) (hok : entryOK fs0 bt rel false) :
    fs.lookup (bt ++ segsOf rel) = none ∨
      ∃ c, fs.lookup (bt ++ segsOf rel) = some (.file c) := by
  rcases hla : fs.lookup (bt ++ segsOf rel) with _ | n
  · exact Or.inl rfl
  · cases n with
    | dir => exact absurd hla (file_entry_not_dir hinv hgood hmem hok.2)
    | file c => exact Or.inr ⟨c, rfl⟩

theorem processEntry_wrote_created {ct : List (List Char × Option (List Char))} {fs : FS}
    {a : AbsPath} {rel : List Char} {c : List Char} (hla : fs.lookup a = none)
    (h : ((processEntry false ct fs a rel false).1).lookup a = some (.file c)) :
    (processEntry false ct fs a rel false).2 = .createdTag := by
  rcases hmk : mkdirParents fs a.dropLast with e | fs'
  · have hres : (processEntry false ct fs a rel false).1 = fs := by
      rw [processEntry_false_eq hla, hmk]
    rw [hres, hla] at h
    exact absurd h (by simp)
  · rcases hw : writeFile fs' a (effContent ct rel) with e | fs''
    · have hres : (processEntry false ct fs a rel false).1 = fs' := by
        rw [processEntry_false_eq hla, hmk]; simp [hw]
      rw [hres] at h
      rcases mkdirRec_effects hmk a with h' | ⟨_, h2, _, _⟩
      · rw [h', hla] at h; exact absurd h (by simp)
      · rw [h2] at h; exact absurd h (by simp)
    · rw [processEntry_false_eq hla, hmk]; simp [hw]

/-- Soundness: every `created` trace element was `entryOK` in the initial
state. -/
theorem runEntries_sound {fs0 : FS} {bt : AbsPath} {psAll : List (List Char × Bool)}
    {ct : List (List Char × Option (List Char))} (hbtne : bt ≠ [])
    (hplain : ∀ e ∈ psAll, PlainRel e.1) :
    ∀ {l : List (List Char × Bool)} {fs : FS}, (∀ e ∈ l, e ∈ psAll) →
      RunInv fs0 bt psAll fs →
      ∀ x ∈ (runEntries false ct bt fs l).2.1, x.2.2.2 = EntryTag.createdTag →
        entryOK fs0 bt x.1 x.2.1 := by
  intro l
  induction l with
  | nil => intro fs _ _ x hx; rw [runEntries_nil] at hx; exact absurd hx (by simp)
  | cons y rest ih =>
    intro fs hsub hinv x hx htag
    rcases y with ⟨rel, isd⟩
    have hmem : (rel, isd) ∈ psAll := hsub _ (List.mem_cons_self _ _)
    have hs : safe_join bt rel = .ok (bt ++ segsOf rel) := safe_join_plain (hplain _ hmem)
    rw [runEntries_cons_ok hs] at hx
    rcases List.mem_cons.mp hx with h' | h'
    · subst h'
      simp only at htag
      exact processEntry_created_entryOK hinv hbtne htag
    · exact ih (fun e he => hsub e (List.mem_cons_of_mem _ he)) (runInv_step hinv hmem) x h' htag

/-- Completeness: an `entryOK` entry of the remaining list is `created`,
unless its file already sits on disk (which only happens for duplicates along
a full run). -/
theorem runEntries_complete {fs0 : FS} {bt : AbsPath} {psAll : List (List Char × Bool)}
    {ct : List (List Char × Option (List Char))} (hbtne : bt ≠ [])
    (hgood : GoodEntries psAll) :
    ∀ {l : List (List Char × Bool)} {fs : FS}, (∀ e ∈ l, e ∈ psAll) →
      RunInv fs0 bt psAll fs →
      ∀ rel isd, (rel, isd) ∈ l → entryOK fs0 bt rel isd →
        pathStr (bt ++ segsOf rel) ∈ createdOf (runEntries false ct bt fs l).2.1 ∨
        (isd = false ∧ ∃ c, fs.lookup (bt ++ segsOf rel) = some (.file c)) := by
  intro l
  induction l with
  | nil => intro fs _ _ rel isd h _; exact absurd h (by simp)
  | cons y rest ih =>
    intro fs hsub hinv rel isd hmem hok
    rcases y with ⟨r, d⟩
    have hheadAll : (r, d) ∈ psAll := hsub _ (List.mem_cons_self _ _)
    have hs : safe_join bt r = .ok (bt ++ segsOf r) := safe_join_plain (hgood.1 _ hheadAll)
    rw [runEntries_cons_ok hs]
    rcases List.mem_cons.mp hmem with hhead | htail
    · obtain ⟨hr, hd⟩ := Prod.mk.injEq .. ▸ hhead
      subst hr; subst hd
      cases isd with
      | true =>
        have htag := @step_dir_ok_created _ _ _ _ ct _ hinv hgood hheadAll hok
        left
        refine mem_createdOf.mpr ⟨rel, true, bt ++ segsOf rel, ?_, rfl⟩
        rw [← htag]
        exact List.mem_cons_self _ _
      | false =>
        rcases step_file_lookup_cases hinv hgood hheadAll hok with hla | ⟨c, hla⟩
        · have htag := (@step_file_ok_created _ _ _ _ ct _ hinv hgood hbtne hheadAll hok hla).1
          left
          refine mem_createdOf.mpr ⟨rel, false, bt ++ segsOf rel, ?_, rfl⟩
          rw [← htag]
          exact List.mem_cons_self _ _
        · exact Or.inr ⟨rfl, c, hla⟩
    · have hmemAll : (rel, isd) ∈ psAll := hsub _ (List.mem_cons_of_mem _ htail)
      have hinv' := @runInv_step _ _ _ _ ct r d hinv hheadAll
      rcases ih (fun e he => hsub e (List.mem_cons_of_mem _ he)) hinv' rel isd htail hok
        with hcre | ⟨hisd, c, hfc⟩
      · left
        obtain ⟨rel', isd', a', hmem', heq⟩ := mem_createdOf.mp hcre
        exact mem_createdOf.mpr ⟨rel', isd', a', List.mem_cons_of_mem _ hmem', heq⟩
      · subst hisd
        rcases @processEntry_effects ct fs (bt ++ segsOf r) r d (bt ++ segsOf rel)
          with heq | ⟨h0, _, hcase⟩
        · rw [heq] at hfc
          exact Or.inr ⟨rfl, c, hfc⟩
        · rcases hcase with ⟨hdir, _⟩ | ⟨hfile, hqa, hdd⟩
          · rw [hfc] at hdir
            exact absurd hdir (by simp)
          · -- the head wrote our file: the head is this very entry, created now
            have hrr : rel = r := segsOf_inj (List.append_cancel_left hqa)
            subst hrr
            subst hdd
            have htag := processEntry_wrote_created h0 (by rw [hfc])
            left
            refine mem_createdOf.mpr ⟨rel, false, bt ++ segsOf rel, ?_, rfl⟩
            rw [← htag]
            exact List.mem_cons_self _ _

/-- Content: a distinct `entryOK` file entry ends the run holding exactly its
effective content. -/
theorem runEntries_content {fs0 : FS} {bt : AbsPath} {psAll : List (List Char × Bool)}
    {ct : List (List Char × Option (List Char))} (hbtne : bt ≠ [])
    (hgood : GoodEntries psAll) :
    ∀ {l : List (List Char × Bool)} {fs : FS}, (∀ e ∈ l, e ∈ psAll) →
      l.Pairwise (fun e1 e2 => e1.1 ≠ e2.1) → RunInv fs0 bt psAll fs →
      ∀ rel, (rel, false) ∈ l → entryOK fs0 bt rel false →
        fs.lookup (bt ++ segsOf rel) = none →
        ((runEntries false ct bt fs l).1).lookup (bt ++ segsOf rel) =
          some (.file (effContent ct rel)) := by
  intro l
  induction l with
  | nil => intro fs _ _ _ rel h _ _; exact absurd h (by simp)
  | cons y rest ih =>
    intro fs hsub hpw hinv rel hmem hok hla
    rcases y with ⟨r, d⟩
    have hheadAll : (r, d) ∈ psAll := hsub _ (List.mem_cons_self _ _)
    have hmemAll : (rel, false) ∈ psAll := hsub _ hmem
    have hs : safe_join bt r = .ok (bt ++ segsOf r) := safe_join_plain (hgood.1 _ hheadAll)
    rw [runEntries_cons_ok hs]
    rcases List.mem_cons.mp hmem with hhead | htail
    · obtain ⟨hr, hd⟩ := Prod.mk.injEq .. ▸ hhead
      subst hr; subst hd
      have hstep := (@step_file_ok_created _ _ _ _ ct _ hinv hgood hbtne hheadAll hok hla).2
      exact runEntries_persist hstep
    · have hne : r ≠ rel := fun he =>
        ((List.pairwise_cons.mp hpw).1 (rel, false) htail) (by rw [he])
      have hinv' := @runInv_step _ _ _ _ ct r d hinv hheadAll
      have hla' : ((processEntry false ct fs (bt ++ segsOf r) r d).1).lookup
          (bt ++ segsOf rel) = none := by
        rcases @processEntry_effects ct fs (bt ++ segsOf r) r d (bt ++ segsOf rel)
          with heq | ⟨h0, _, hcase⟩
        · rw [heq, hla]
        · exfalso
          rcases hcase with ⟨_, hp⟩ | ⟨_, hqa, _⟩
          · rcases hp with ⟨_, hpre⟩ | ⟨_, hpre⟩
            · have hseg : segsOf rel <+: segsOf r := (List.prefix_append_right_inj bt).mp hpre
              exact hgood.2.2 (rel, false) hmemAll rfl (r, d) hheadAll ⟨hseg, fun he => hne he.symm⟩
            · obtain ⟨hpre', hne'⟩ := proper_of_prefix_dropLast (appendSegs_ne_nil hbtne r) hpre
              have hseg : segsOf rel <+: segsOf r := (List.prefix_append_right_inj bt).mp hpre'
              exact hgood.2.2 (rel, false) hmemAll rfl (r, d) hheadAll ⟨hseg, fun he => hne he.symm⟩
          · exact hne (segsOf_inj (List.append_cancel_left hqa)).symm
      exact ih (fun e he => hsub e (List.mem_cons_of_mem _ he))
        (List.pairwise_cons.mp hpw).2 hinv' rel htail hok hla'

/-- Characterization of `created` for a full well-formed live run: an absolute
path is created exactly when it is the canonical path of an `entryOK` entry.
Notably the right-hand side does not depend on the order of the entry list. -/
theorem runEntries_created_characterization
    (ct : List (List Char × Option (List Char))) (bt : AbsPath) (fs0 : FS)
    (ps : List (List Char × Bool)) (hbt : NicePath bt) (hbtne : bt ≠ [])
    (hc0 : ConsistentFS fs0) (hgood : GoodEntries ps) :
    (runEntries false ct bt fs0 ps).2.2 = none ∧
    (∀ s, s ∈ createdOf (runEntries false ct bt fs0 ps).2.1 ↔
      ∃ e ∈ ps, entryOK fs0 bt e.1 e.2 ∧ s = pathStr (bt ++ segsOf e.1)) := by
  have hall : ∀ x ∈ ps, ∃ a, safe_join bt x.1 = .ok a :=
    fun x hx => ⟨bt ++ segsOf x.1, safe_join_plain (hgood.1 x hx)⟩
  refine ⟨runEntries_no_abort hall, fun s => ⟨?_, ?_⟩⟩
  · intro hc
    obtain ⟨rel, isd, a, hmem, rfl⟩ := mem_createdOf.mp hc
    obtain ⟨hps, hsj⟩ := @runEntries_trace_shape false ct bt ps fs0
      (rel, isd, a, EntryTag.createdTag) hmem
    have hsj' : safe_join bt rel = .ok (bt ++ segsOf rel) := safe_join_plain (hgood.1 _ hps)
    have ha : a = bt ++ segsOf rel := by
      rw [hsj'] at hsj
      injection hsj with h
      exact h.symm
    subst ha
    have hok := runEntries_sound hbtne hgood.1 (fun e he => he) (runInv_init hc0)
      (rel, isd, bt ++ segsOf rel, EntryTag.createdTag) hmem rfl
    exact ⟨(rel, isd), hps, hok, rfl⟩
  · rintro ⟨e, hmem, hok, rfl⟩
    rcases runEntries_complete hbtne hgood (fun e he => he) (runInv_init hc0)
      e.1 e.2 hmem hok with h | ⟨hisd, c, hfc⟩
    · exact h
    · exfalso
      have h2 := hok.2
      rw [hisd] at h2
      simp only [Bool.false_eq_true, if_false] at h2
      rw [h2] at hfc
      exact absurd hfc (by simp)

/-- The (non-dry-run) result record once the target is confined and no entry
aborts the run. -/
theorem scaffold_core_live {selected : List Char} {paths : List (List Char × Bool)}
    {ct : List (List Char × Option (List Char))} {base : AbsPath} {tp : List Char}
    {bt : AbsPath} {fs : FS} {ow : Bool}
    (hbt : safe_join base (cleanTarget tp) = .ok bt)
    (hab : (runEntries ow ct bt fs paths).2.2 = none) :
    scaffold_core selected paths ct base tp ow false fs =
      ⟨(runEntries ow ct bt fs paths).1,
       .ok { selected_mode := selected, base := pathStr base, target := pathStr bt,
             created := createdOf (runEntries ow ct bt fs paths).2.1,
             skipped := skippedOf (runEntries ow ct bt fs paths).2.1,
             errors := errorsOf (runEntries ow ct bt fs paths).2.1,
             dry_run := false, plan := none }⟩ := by
  rw [scaffold_core, hbt]
  simp only [Bool.false_eq_true, if_false, hab]

/-! ## Claim C8 (corrected) -/

/-- C8 amended: a nested-mapping spec and a flat-entry spec that decode to the
same *set* of `(path, type, content)` triples produce identical `created`
sets in live runs from the same initial state, provided the triple set is
well-formed: plain paths, a single type per path, and no file path strictly
below another path.  (Without the last condition the original claim is false;
see the counterexample.) -/
theorem C8_same_triples_same_created_set
    (sel1 sel2 : List Char) (d f : JVal)
    (t1 t2 : List (List Char × Bool × Option (List Char)))
    (base : AbsPath) (tp : List Char) (bt : AbsPath) (fs0 : FS)
    (hp1 : parse_yaml_or_json d = .ok t1) (hp2 : parse_yaml_or_json f = .ok t2)
    (hset : ∀ t, t ∈ t1 ↔ t ∈ t2)
    (hbtj : safe_join base (cleanTarget tp) = .ok bt)
    (hbt : NicePath bt) (hbtne : bt ≠ []) (hc0 : ConsistentFS fs0)
    (hgood : GoodEntries (t1.map fun x => (x.1, x.2.1))) :
    (scaffold_project_structured sel1 d tp false false base fs0).result =
      .ok { selected_mode := sel1, base := pathStr base, target := pathStr bt,
            created := createdOf (runEntries false
              (t1.filterMap fun x => if x.2.1 then none else some (x.1, x.2.2))
              bt fs0 (t1.map fun x => (x.1, x.2.1))).2.1,
            skipped := skippedOf (runEntries false
              (t1.filterMap fun x => if x.2.1 then none else some (x.1, x.2.2))
              bt fs0 (t1.map fun x => (x.1, x.2.1))).2.1,
            errors := errorsOf (runEntries false
              (t1.filterMap fun x => if x.2.1 then none else some (x.1, x.2.2))
              bt fs0 (t1.map fun x => (x.1, x.2.1))).2.1,
            dry_run := false, plan := none } ∧
    (scaffold_project_structured sel2 f tp false false base fs0).result =
      .ok { selected_mode := sel2, base := pathStr base, target := pathStr bt,
            created := createdOf (runEntries false
              (t2.filterMap fun x => if x.2.1 then none else some (x.1, x.2.2))
              bt fs0 (t2.map fun x => (x.1, x.2.1))).2.1,
            skipped := skippedOf (runEntries false
              (t2.filterMap fun x => if x.2.1 then none else some (x.1, x.2.2))
              bt fs0 (t2.map fun x => (x.1, x.2.1))).2.1,
            errors := errorsOf (runEntries false
              (t2.filterMap fun x => if x.2.1 then none else some (x.1, x.2.2))
              bt fs0 (t2.map fun x => (x.1, x.2.1))).2.1,
            dry_run := false, plan := none } ∧
    (∀ s, s ∈ createdOf (runEntries false
        (t1.filterMap fun x => if x.2.1 then none else some (x.1, x.2.2))
        bt fs0 (t1.map fun x => (x.1, x.2.1))).2.1 ↔
      s ∈ createdOf (runEntries false
        (t2.filterMap fun x => if x.2.1 then none else some (x.1, x.2.2))
        bt fs0 (t2.map fun x => (x.1, x.2.1))).2.1) := by
  have hmm : ∀ e, (e ∈ t2.map fun x => (x.1, x.2.1)) ↔ (e ∈ t1.map fun x => (x.1, x.2.1)) := by
    intro e
    simp only [List.mem_map]
    constructor
    · rintro ⟨x, hx, rfl⟩; exact ⟨x, (hset x).mpr hx, rfl⟩
    · rintro ⟨x, hx, rfl⟩; exact ⟨x, (hset x).mp hx, rfl⟩
  have hgood2 : GoodEntries (t2.map fun x => (x.1, x.2.1)) := by
    obtain ⟨g1, g2, g3⟩ := hgood
    exact ⟨fun e he => g1 e ((hmm e).mp he),
      fun e1 he1 e2 he2 => g2 e1 ((hmm e1).mp he1) e2 ((hmm e2).mp he2),
      fun e1 he1 hf e2 he2 => g3 e1 ((hmm e1).mp he1) hf e2 ((hmm e2).mp he2)⟩
  have hchar1 := runEntries_created_characterization
    (t1.filterMap fun x => if x.2.1 then none else some (x.1, x.2.2)) bt fs0
    (t1.map fun x => (x.1, x.2.1)) hbt hbtne hc0 hgood
  have hchar2 := runEntries_created_characterization
    (t2.filterMap fun x => if x.2.1 then none else some (x.1, x.2.2)) bt fs0
    (t2.map fun x => (x.1, x.2.1)) hbt hbtne hc0 hgood2
  refine ⟨?_, ?_, ?_⟩
  · rw [scaffold_project_structured]
    simp only [hp1]
    rw [scaffold_core_live hbtj hchar1.1]
  · rw [scaffold_project_structured]
    simp only [hp2]
    rw [scaffold_core_live hbtj hchar2.1]
  · intro s
    rw [hchar1.2 s, hchar2.2 s]
    constructor
    · rintro ⟨e, he, hok, rfl⟩; exact ⟨e, (hmm e).mpr he, hok, rfl⟩
    · rintro ⟨e, he, hok, rfl⟩; exact ⟨e, (hmm e).mp he, hok, rfl⟩

/-- C8 counterexample: the nested mapping with keys `"a"` (null) and `"a/b"`
(sub-mapping) and the flat list of the *same* two `(path, type, content)`
triples in the opposite order yield different `created` sets on a fresh
target: `{/base/proj/a}` versus `{/base/proj/a/b}`.  The nested run writes
file `a` first and then fails to create directory `a/b`; the flat run creates
directory `a/b` (and `a` as a directory with it) first, after which file `a`
is skipped. -/
theorem C8_counterexample :
    parse_yaml_or_json (.obj [("a".data, .null), ("a/b".data, .obj [])]) =
      .ok [("a".data, false, none), ("a/b".data, true, none)] ∧
    parse_yaml_or_json (.obj [("entries".data,
        .arr [.obj [("path".data, .str "a/b".data), ("type".data, .str "dir".data)],
              .obj [("path".data, .str "a".data)]])]) =
      .ok [("a/b".data, true, none), ("a".data, false, none)] ∧
    (scaffold_project_structured "yaml".data (.obj [("a".data, .null), ("a/b".data, .obj [])])
      "proj".data false false ["base".data] [(["base".data], FSNode.dir)]).result.map
        (fun r => r.created) = .ok ["/base/proj/a".data] ∧
    (scaffold_project_structured "json".data (.obj [("entries".data,
        .arr [.obj [("path".data, .str "a/b".data), ("type".data, .str "dir".data)],
              .obj [("path".data, .str "a".data)]])])
      "proj".data false false ["base".data] [(["base".data], FSNode.dir)]).result.map
        (fun r => r.created) = .ok ["/base/proj/a/b".data] ∧
    ("/base/proj/a".data : List Char) ≠ "/base/proj/a/b".data :=
  ⟨rfl, rfl, rfl, rfl, by decide⟩

theorem FS.lookup_singleton (k : AbsPath) (v : FSNode) (p : AbsPath) :
    FS.lookup [(k, v)] p = if p = k then some v else none := by
  have h := FS.lookup_insert [] k v p
  simpa [FS.insert, FS.lookup] using h

theorem prefix_of_singleton {α : Type _} {q : List α} {s : α} (h : q <+: [s]) :
    q = [] ∨ q = [s] := by
  have hl := h.length_le
  rcases q with _ | ⟨x, xs⟩
  · exact Or.inl rfl
  · right
    have hl' : xs.length + 1 ≤ 1 := by simpa using hl
    have h1 : (x :: xs).length = xs.length + 1 := List.length_cons x xs
    have h2 : ([s] : List α).length = 1 := rfl
    exact h.eq_of_length (by omega)

/-- The one-directory filesystem `{/base}` is a realizable disk state. -/
theorem consistent_singleton_dir (s : Seg) : ConsistentFS [([s], FSNode.dir)] := by
  constructor
  · rw [FS.lookup_singleton]
    simp
  · intro p n hp q hq hqp hq0
    have hpk : p = [s] := by
      rw [FS.lookup_singleton] at hp
      by_cases h : p = [s]
      · exact h
      · rw [if_neg h] at hp; exact absurd hp (by simp)
    subst hpk
    rcases prefix_of_singleton hq with h | h
    · exact absurd h hq0
    · exact absurd h hqp

/-- Witness for the amended C8: nested `{"x": null, "y": {"z": "w"}}` against
the flat list of the same triples in reverse order, on a fresh target. -/
theorem C8_witness :
    ("/base/proj/x".data ∈ createdOf (runEntries false
        (([("x".data, false, none), ("y".data, true, none),
           ("y/z".data, false, some "w".data)] :
            List (List Char × Bool × Option (List Char))).filterMap
          fun x => if x.2.1 then none else some (x.1, x.2.2))
        ["base".data, "proj".data] [(["base".data], FSNode.dir)]
        (([("x".data, false, none), ("y".data, true, none),
           ("y/z".data, false, some "w".data)] :
            List (List Char × Bool × Option (List Char))).map
          fun x => (x.1, x.2.1))).2.1) ↔
    ("/base/proj/x".data ∈ createdOf (runEntries false
        (([("y/z".data, false, some "w".data), ("y".data, true, none),
           ("x".data, false, none)] :
            List (List Char × Bool × Option (List Char))).filterMap
          fun x => if x.2.1 then none else some (x.1, x.2.2))
        ["base".data, "proj".data] [(["base".data], FSNode.dir)]
        (([("y/z".data, false, some "w".data), ("y".data, true, none),
           ("x".data, false, none)] :
            List (List Char × Bool × Option (List Char))).map
          fun x => (x.1, x.2.1))).2.1) := by
  have h := C8_same_triples_same_created_set "yaml".data "json".data
    (.obj [("x".data, .null), ("y".data, .obj [("z".data, .str "w".data)])])
    (.obj [("entries".data,
      .arr [.obj [("path".data, .str "y/z".data), ("content".data, .str "w".data)],
            .obj [("path".data, .str "y".data), ("type".data, .str "dir".data)],
            .obj [("path".data, .str "x".data)]])])
    [("x".data, false, none), ("y".data, true, none), ("y/z".data, false, some "w".data)]
    [("y/z".data, false, some "w".data), ("y".data, true, none), ("x".data, false, none)]
    ["base".data] "proj".data ["base".data, "proj".data] [(["base".data], FSNode.dir)]
    rfl rfl
    (by
      intro t
      simp only [List.mem_cons, List.not_mem_nil, or_false]
      tauto)
    rfl (by unfold NicePath; decide) (by decide) (consistent_singleton_dir "base".data)
    (by unfold GoodEntries PlainRel segsOf; decide)
  exact h.2.2 "/base/proj/x".data

/-! ## Claim C5 (corrected) -/

theorem prefix_pair {α : Type _} {q : List α} {a b : α} (h : q <+: [a, b]) :
    q = [] ∨ q = [a] ∨ q = [a, b] := by
  rcases q with _ | ⟨x, xs⟩
  · exact Or.inl rfl
  · obtain ⟨hx, h'⟩ := List.cons_prefix_cons.mp h
    subst hx
    rcases prefix_of_singleton h' with h'' | h''
    · subst h''; exact Or.inr (Or.inl rfl)
    · subst h''; exact Or.inr (Or.inr rfl)

theorem prefix_split_le {α : Type _} {q p r : List α} (h : q <+: p ++ r)
    (hlen : q.length ≤ p.length) : q <+: p := by
  have hq := List.prefix_iff_eq_take.mp h
  rw [List.take_append_eq_append_take] at hq
  rw [Nat.sub_eq_zero_of_le hlen] at hq
  simp only [List.take_zero, List.append_nil] at hq
  rw [hq]
  exact List.take_prefix _ _

theorem prefix_split_gt {α : Type _} {q p r : List α} (h : q <+: p ++ r)
    (hlen : p.length < q.length) : ∃ x, x ≠ [] ∧ q = p ++ x ∧ x <+: r := by
  have hq := List.prefix_iff_eq_take.mp h
  rw [List.take_append_eq_append_take] at hq
  rw [List.take_of_length_le (by omega)] at hq
  refine ⟨r.take (q.length - p.length), ?_, hq, List.take_prefix _ _⟩
  intro hx
  have hql := h.length_le
  rw [List.length_append] at hql
  have : (r.take (q.length - p.length)).length = q.length - p.length := by
    rw [List.length_take]
    omega
  rw [hx] at this
  simp at this
  omega

/-- On a fresh target (nothing below the resolved target, sane ancestors
above it) every plain entry is `entryOK`. -/
theorem entryOK_of_fresh {fs0 : FS} {bt : AbsPath}
    (H1 : ∀ q, q <+: bt → fs0.lookup q = none ∨ fs0.lookup q = some .dir)
    (H2 : ∀ x : List Seg, x ≠ [] → fs0.lookup (bt ++ x) = none)
    (rel : List Char) (isd : Bool) : entryOK fs0 bt rel isd := by
  have habs : fs0.lookup (bt ++ segsOf rel) = none :=
    H2 _ (splitOnChar_ne_nil '/' rel)
  constructor
  · intro q hq hqne
    by_cases hlen : q.length ≤ bt.length
    · exact H1 q (prefix_split_le hq hlen)
    · obtain ⟨x, hx, rfl, _⟩ := prefix_split_gt hq (by omega)
      exact Or.inl (H2 x hx)
  · cases isd with
    | true =>
      simp only [if_pos]
      intro c hc
      rw [habs] at hc
      exact absurd hc (by simp)
    | false => exact habs

/-- With pairwise distinct entry paths, the `contents` dict binds a file
entry's path to exactly its parsed content. -/
theorem contentsGet_of_mem :
    ∀ {t : List (List Char × Bool × Option (List Char))} {rel : List Char}
      {copt : Option (List Char)},
      t.Pairwise (fun a b => a.1 ≠ b.1) → (rel, false, copt) ∈ t →
      ((t.filterMap fun x => if x.2.1 then none else some (x.1, x.2.2)).reverse).find?
        (·.1 == rel) = some (rel, copt) := by
  intro t
  induction t with
  | nil => intro rel copt _ h; exact absurd h (by simp)
  | cons x rest ih =>
    intro rel copt hpw hmem
    rw [List.filterMap_cons]
    rcases List.mem_cons.mp hmem with hhead | htail
    · have hx : x = (rel, false, copt) := hhead.symm
      subst hx
      simp only [Bool.false_eq_true, if_false]
      rw [List.reverse_cons, List.find?_append]
      have hnone : ((rest.filterMap fun x =>
          if x.2.1 then none else some (x.1, x.2.2)).reverse).find? (·.1 == rel) = none := by
        rw [List.find?_eq_none]
        intro b hb hbeq
        rw [List.mem_reverse, List.mem_filterMap] at hb
        obtain ⟨y, hy, hfy⟩ := hb
        have hb1 : b.1 = y.1 := by
          by_cases hyd : y.2.1
          · rw [if_pos hyd] at hfy; exact absurd hfy (by simp)
          · rw [if_neg hyd] at hfy
            injection hfy with hfy
            rw [← hfy]
        have : (rel : List Char) ≠ y.1 := (List.pairwise_cons.mp hpw).1 y hy
        rw [hb1] at hbeq
        exact this (Eq.symm (by simpa using hbeq))
      rw [hnone]
      simp only [Option.none_or]
      rw [List.find?_cons]
      simp
    · have hfind := ih (List.pairwise_cons.mp hpw).2 htail
      by_cases hxd : x.2.1
      · rw [if_pos hxd]
        exact hfind
      · rw [if_neg hxd]
        rw [List.reverse_cons, List.find?_append, hfind]
        rfl

/-- C5 counterexample: for the nested mapping `{"README.md": null}` a live
run on a fresh target writes the built-in `README.md` default snippet, not
the empty string. -/
theorem C5_counterexample :
    (scaffold_project_structured "yaml".data (.obj [("README.md".data, JVal.null)])
      "proj".data false false ["base".data] [(["base".data], FSNode.dir)]).fs.lookup
      ["base".data, "proj".data, "README.md".data] =
      some (.file "# Project\n\nDescribe your project here.\n".data) ∧
    ("# Project\n\nDescribe your project here.\n".data : List Char) ≠ [] :=
  ⟨rfl, by decide⟩

/-- C5 amended: a key whose value is null denotes a file entry with *no
explicit content*; after a live run on a fresh target the file created for
that key contains the default snippet registered for its basename, or the
empty string when the basename has no default (any other non-mapping value
yields that value coerced to text).  The second part states the on-disk
content for every parsed file entry: explicit content when parsed, default
snippet lookup otherwise. -/
theorem C5_null_key_gets_default_snippet :
    (∀ pfx k, walkVal pfx k .null =
      [(rstripSlash (if pfx == [] then k else pfx ++ '/' :: k), false, none)]) ∧
    (∀ (sel : List Char) (data : JVal) (t : List (List Char × Bool × Option (List Char)))
       (rel : List Char) (copt : Option (List Char)) (base : AbsPath) (tp : List Char)
       (bt : AbsPath) (fs0 : FS),
      parse_yaml_or_json data = .ok t →
      (rel, false, copt) ∈ t →
      safe_join base (cleanTarget tp) = .ok bt →
      NicePath bt → bt ≠ [] → ConsistentFS fs0 →
      GoodEntries (t.map fun x => (x.1, x.2.1)) →
      t.Pairwise (fun a b => a.1 ≠ b.1) →
      (∀ q, q <+: bt → fs0.lookup q = none ∨ fs0.lookup q = some .dir) →
      (∀ x : List Seg, x ≠ [] → fs0.lookup (bt ++ x) = none) →
      (scaffold_project_structured sel data tp false false base fs0).fs.lookup
        (bt ++ segsOf rel) = some (.file (copt.getD (snippetFor (basename rel))))) := by
  constructor
  · intro pfx k; rfl
  · intro sel data t rel copt base tp bt fs0 hp hmem hbtj hbt hbtne hc0 hgood hdist H1 H2
    have hmemPs : (rel, false) ∈ t.map fun x => (x.1, x.2.1) :=
      List.mem_map.mpr ⟨(rel, false, copt), hmem, rfl⟩
    have hok : entryOK fs0 bt rel false := entryOK_of_fresh H1 H2 rel false
    have hall : ∀ x ∈ t.map fun x => (x.1, x.2.1), ∃ a, safe_join bt x.1 = .ok a :=
      fun x hx => ⟨bt ++ segsOf x.1, safe_join_plain (hgood.1 x hx)⟩
    have hab := @runEntries_no_abort false
      (t.filterMap fun x => if x.2.1 then none else some (x.1, x.2.2))
      bt _ fs0 hall
    have hfs : (scaffold_project_structured sel data tp false false base fs0).fs =
        (runEntries false (t.filterMap fun x => if x.2.1 then none else some (x.1, x.2.2))
          bt fs0 (t.map fun x => (x.1, x.2.1))).1 := by
      rw [scaffold_project_structured]
      simp only [hp]
      rw [scaffold_core_live hbtj hab]
    rw [hfs]
    have hpw : (t.map fun x => (x.1, x.2.1)).Pairwise (fun e1 e2 => e1.1 ≠ e2.1) := by
      rw [List.pairwise_map]
      exact hdist
    have hcontent := @runEntries_content fs0 bt (t.map fun x => (x.1, x.2.1))
      (t.filterMap fun x => if x.2.1 then none else some (x.1, x.2.2))
      hbtne hgood _ _ (fun e he => he) hpw
      (runInv_init hc0) rel hmemPs hok (H2 _ (splitOnChar_ne_nil '/' rel))
    rw [hcontent]
    have hcg : contentsGet
        (t.filterMap fun x => if x.2.1 then none else some (x.1, x.2.2)) rel = copt := by
      rw [contentsGet, contentsGet_of_mem hdist hmem]
    cases copt with
    | none => simp [effContent, hcg]
    | some c => simp [effContent, hcg]

/-- Witness for the amended C5 at the nested mapping `{"README.md": null}`:
the created file holds the default `README.md` snippet. -/
theorem C5_witness :
    (scaffold_project_structured "yaml".data (.obj [("README.md".data, JVal.null)])
      "proj".data false false ["base".data] [(["base".data], FSNode.dir)]).fs.lookup
      (["base".data, "proj".data] ++ segsOf "README.md".data) =
      some (.file ((none : Option (List Char)).getD (snippetFor (basename "README.md".data)))) := by
  apply C5_null_key_gets_default_snippet.2 "yaml".data
    (.obj [("README.md".data, JVal.null)]) [("README.md".data, false, none)]
    "README.md".data none
    ["base".data] "proj".data ["base".data, "proj".data] [(["base".data], FSNode.dir)]
    rfl (by decide) rfl (by unfold NicePath; decide) (by decide)
    (consistent_singleton_dir "base".data)
    (by unfold GoodEntries PlainRel segsOf; decide)
    (by
      refine List.Pairwise.cons ?_ List.Pairwise.nil
      intro b hb
      exact absurd hb (by simp))
    (by
      intro q hq
      rcases prefix_pair hq with rfl | rfl | rfl
      · exact Or.inl rfl
      · exact Or.inr rfl
      · exact Or.inl rfl)
    (by
      intro x hx
      rw [FS.lookup_singleton, if_neg ?_]
      intro he
      have := congrArg List.length he
      simp at this)

/-! ## Claim C1 (corrected) -/

/-- C1 counterexample: for the example prompt, parsing and collapsing does
*not* give the directory the relative path `src` — `collapse_tree` joins the
directory-name stack (which already holds the directory itself) with the
entry's own name, yielding `src/src`. -/
theorem C1_counterexample :
    collapse_tree (parse_ascii_tree "app/\n├─ README.md\n└─ src/\n   └─ main.py".data) ≠
      [("README.md".data, false), ("src".data, true), ("src/main.py".data, false)] ∧
    collapse_tree (parse_ascii_tree "app/\n├─ README.md\n└─ src/\n   └─ main.py".data) =
      [("README.md".data, false), ("src/src".data, true), ("src/main.py".data, false)] := by
  constructor
  · decide
  · rfl

/-- C1 amended: for the example prompt in `tree` mode, parsing yields the
entries `README.md` (file, depth 0; the root label line is skipped), `src`
(directory, depth 0) and `main.py` (file, depth 1); collapsing gives the
relative paths `README.md`, `src/src` (the stack join repeats the directory's
own name) and `src/main.py`; and a live run against an empty target creates
two files and one directory entry (`<target>/src/src`, which also brings
`<target>/src` into existence), with empty `skipped` and `errors`.
`README.md` receives its default snippet and `main.py` is empty. -/
theorem C1_tree_example :
    parse_ascii_tree "app/\n├─ README.md\n└─ src/\n   └─ main.py".data =
      [(0, "README.md".data, false), (0, "src".data, true), (1, "main.py".data, false)] ∧
    collapse_tree (parse_ascii_tree "app/\n├─ README.md\n└─ src/\n   └─ main.py".data) =
      [("README.md".data, false), ("src/src".data, true), ("src/main.py".data, false)] ∧
    (scaffold_project_tree "app/\n├─ README.md\n└─ src/\n   └─ main.py".data "proj".data
      false false ["base".data] [(["base".data], FSNode.dir)]).result =
      .ok { selected_mode := "tree".data, base := "/base".data, target := "/base/proj".data,
            created := ["/base/proj/README.md".data, "/base/proj/src/src".data,
                        "/base/proj/src/main.py".data],
            skipped := [], errors := [], dry_run := false, plan := none } ∧
    (scaffold_project_tree "app/\n├─ README.md\n└─ src/\n   └─ main.py".data "proj".data
      false false ["base".data] [(["base".data], FSNode.dir)]).fs.lookup
      ["base".data, "proj".data, "README.md".data] =
      some (.file "# Project\n\nDescribe your project here.\n".data) ∧
    (scaffold_project_tree "app/\n├─ README.md\n└─ src/\n   └─ main.py".data "proj".data
      false false ["base".data] [(["base".data], FSNode.dir)]).fs.lookup
      ["base".data, "proj".data, "src".data] = some .dir ∧
    (scaffold_project_tree "app/\n├─ README.md\n└─ src/\n   └─ main.py".data "proj".data
      false false ["base".data] [(["base".data], FSNode.dir)]).fs.lookup
      ["base".data, "proj".data, "src".data, "src".data] = some .dir ∧
    (scaffold_project_tree "app/\n├─ README.md\n└─ src/\n   └─ main.py".data "proj".data
      false false ["base".data] [(["base".data], FSNode.dir)]).fs.lookup
      ["base".data, "proj".data, "src".data, "main.py".data] = some (.file []) :=
  ⟨rfl, rfl, rfl, rfl, rfl, rfl, rfl⟩

/-! ## Claim C2 (corrected) -/

/-- C2 counterexample: a live request whose second entry `"../../x"` escapes
the confinement root terminates with the confinement error, yet the first
entry `"a"` has already been written to disk — the claim's "no filesystem
write is performed for that request" is false for entries preceding the
violating one. -/
theorem C2_counterexample :
    (scaffold_project_structured "json".data
      (.obj [("entries".data, .arr [.obj [("path".data, .str "a".data)],
                                    .obj [("path".data, .str "../../x".data)]])])
      "proj".data false false ["base".data] [(["base".data], FSNode.dir)]).result =
      .error "Target escapes base directory: /x not under /base/proj".data ∧
    (scaffold_project_structured "json".data
      (.obj [("entries".data, .arr [.obj [("path".data, .str "a".data)],
                                    .obj [("path".data, .str "../../x".data)]])])
      "proj".data false false ["base".data] [(["base".data], FSNode.dir)]).fs.lookup
        ["base".data, "proj".data, "a".data] = some (.file []) ∧
    FS.lookup [(["base".data], FSNode.dir)] ["base".data, "proj".data, "a".data] = none :=
  ⟨rfl, rfl, rfl⟩

/-- C2 amended: when an entry's path resolves outside the confinement root in
a live run, the request terminates with that single confinement-violation
error and nothing is created or written for the violating entry or any entry
after it; the filesystem keeps exactly the writes of the entries preceding
the violating one. -/
theorem C2_confinement_abort_keeps_prior_writes
    (selected : List Char) (l1 l2 : List (List Char × Bool)) (rel : List Char) (isd : Bool)
    (ct : List (List Char × Option (List Char))) (base : AbsPath) (target_path : List Char)
    (bt : AbsPath) (fs : FS) (e : List Char)
    (hbt : safe_join base (cleanTarget target_path) = .ok bt)
    (hok : ∀ x ∈ l1, ∃ a, safe_join bt x.1 = .ok a)
    (he : safe_join bt rel = .error e) :
    (scaffold_core selected (l1 ++ (rel, isd) :: l2) ct base target_path false false fs).result
      = .error e ∧
    (scaffold_core selected (l1 ++ (rel, isd) :: l2) ct base target_path false false fs).fs
      = (runEntries false ct bt fs l1).1 := by
  obtain ⟨h1, h2⟩ := @runEntries_abort false ct bt rel isd l2 e he l1 fs hok
  rw [scaffold_core, hbt]
  simp only [Bool.false_eq_true, if_false]
  rw [h2]
  exact ⟨rfl, h1⟩

/-- Witness for the amended C2: the violating second entry aborts the request
while the first entry's write persists. -/
theorem C2_witness :
    (scaffold_core "json".data [("a".data, false), ("../../x".data, false)] []
      ["base".data] "proj".data false false [(["base".data], FSNode.dir)]).result =
      .error "Target escapes base directory: /x not under /base/proj".data ∧
    (scaffold_core "json".data [("a".data, false), ("../../x".data, false)] []
      ["base".data] "proj".data false false [(["base".data], FSNode.dir)]).fs =
      (runEntries false [] ["base".data, "proj".data] [(["base".data], FSNode.dir)]
        [("a".data, false)]).1 := by
  have h := C2_confinement_abort_keeps_prior_writes "json".data [("a".data, false)]
    [] "../../x".data false [] ["base".data] "proj".data
    ["base".data, "proj".data] [(["base".data], FSNode.dir)]
    "Target escapes base directory: /x not under /base/proj".data rfl
    (by
      intro x hx
      have : x = ("a".data, false) := by simpa using hx
      subst this
      exact ⟨["base".data, "proj".data, "a".data], rfl⟩)
    rfl
  exact h

end Scaffolder
